import Mathlib

/-!
Verification development for the OpenSCAD geometry-kernel excerpt:
`ManifoldGeometry` (boolean-kernel adapter), `PolySetUtils::tessellate_faces`
(tessellator) and `PolySetUtils::getGeometryAsPolySet` (geometry dispatcher).

The source is shallowly embedded: vertex positions are an abstract type with
decidable equality (the tessellator is generic over it; the adapter uses
rational triples for `Vector3d`), external collaborators that are not part of
the excerpt (the manifold boolean kernel, CGAL, the constrained-Delaunay
triangulator, `GeometryUtils`) are opaque parameters, and components of the
repository whose sources are not in the excerpt (`Reindexer`, `PolySetBuilder`,
`PolySet`) are modelled from the spec, as marked on their doc comments.
-/

set_option autoImplicit false
set_option linter.unusedSectionVars false

namespace OpenSCAD

/-! ### List helpers: positional lookup used by the vertex table -/

variable {V : Type} [DecidableEq V] [Inhabited V]

/-- Index of the first occurrence of a value in a list, if present. -/
def idxOf : List V → V → Option Nat
  | [], _ => none
  | w :: ws, v => if w = v then some 0 else (idxOf ws v).map (· + 1)

theorem idxOf_eq_none {l : List V} {v : V} : idxOf l v = none ↔ v ∉ l := by
  induction l with
  | nil => simp [idxOf]
  | cons w ws ih =>
    by_cases h : w = v
    · subst h; simp [idxOf]
    · simp [idxOf, h, Option.map_eq_none', ih, Ne.symm h]

theorem idxOf_lt {l : List V} {v : V} {i : Nat} (h : idxOf l v = some i) :
    i < l.length := by
  induction l generalizing i with
  | nil => simp [idxOf] at h
  | cons w ws ih =>
    by_cases hw : w = v
    · subst hw; simp [idxOf] at h; simp; omega
    · simp [idxOf, hw, Option.map_eq_some'] at h
      obtain ⟨j, hj, rfl⟩ := h
      have := ih hj
      simp; omega

theorem idxOf_getD {l : List V} {v : V} {i : Nat} (d : V) (h : idxOf l v = some i) :
    l.getD i d = v := by
  induction l generalizing i with
  | nil => simp [idxOf] at h
  | cons w ws ih =>
    by_cases hw : w = v
    · subst hw; simp [idxOf] at h; subst h; simp
    · simp [idxOf, hw, Option.map_eq_some'] at h
      obtain ⟨j, hj, rfl⟩ := h
      simpa using ih hj

/-- The table only ever grows by appending at the end. -/
def TableExt (t u : List V) : Prop := ∃ s, u = t ++ s

theorem TableExt.refl (t : List V) : TableExt t t := ⟨[], by simp⟩

theorem TableExt.trans {t u w : List V} (h1 : TableExt t u) (h2 : TableExt u w) :
    TableExt t w := by
  obtain ⟨s1, rfl⟩ := h1
  obtain ⟨s2, rfl⟩ := h2
  exact ⟨s1 ++ s2, by simp⟩

theorem TableExt.length_le {t u : List V} (h : TableExt t u) :
    t.length ≤ u.length := by
  obtain ⟨s, rfl⟩ := h
  simp

theorem TableExt.getD_eq {t u : List V} (h : TableExt t u) {i : Nat}
    (hi : i < t.length) (d : V) : u.getD i d = t.getD i d := by
  obtain ⟨s, rfl⟩ := h
  simp only [List.getD_eq_getElem?_getD]
  rw [List.getElem?_append_left hi]

theorem TableExt.mem {t u : List V} (h : TableExt t u) {v : V} (hv : v ∈ t) :
    v ∈ u := by
  obtain ⟨s, rfl⟩ := h
  exact List.mem_append_left _ hv

theorem getD_mem {l : List V} {i : Nat} (d : V) (h : i < l.length) :
    l.getD i d ∈ l := by
  simp only [List.getD_eq_getElem?_getD, List.getElem?_eq_getElem h]
  exact List.getElem_mem h

theorem nodup_getD_inj {l : List V} (hnd : l.Nodup) {i j : Nat} (d : V)
    (hi : i < l.length) (hj : j < l.length) (h : l.getD i d = l.getD j d) :
    i = j := by
  simp only [List.getD_eq_getElem?_getD, List.getElem?_eq_getElem hi,
    List.getElem?_eq_getElem hj, Option.getD_some] at h
  exact (List.Nodup.getElem_inj_iff hnd).mp h

/-! ### Reindexer

Modelled from the spec: the `ReindexedVertexTable` / `Reindexer<Vector3f>`
component (its source is not part of the excerpt) maps a vertex position to a
canonical dense integer index, inserting the position at the end of the table
on first sight.  `lookup` returns the updated table and the index. -/

structure Reindexer (V : Type) [DecidableEq V] where
  table : List V

/-- Modelled from the spec: `Reindexer::lookup` returns the canonical index of
a value, appending it to the dense array on first occurrence. -/
def Reindexer.lookup (r : Reindexer V) (v : V) : Reindexer V × Nat :=
  match idxOf r.table v with
  | some i => (r, i)
  | none => (⟨r.table ++ [v]⟩, r.table.length)

theorem lookup_ext (r : Reindexer V) (v : V) :
    TableExt r.table (r.lookup v).1.table := by
  unfold Reindexer.lookup
  cases h : idxOf r.table v with
  | some i => exact TableExt.refl _
  | none => exact ⟨[v], rfl⟩

theorem lookup_idx_lt (r : Reindexer V) (v : V) :
    (r.lookup v).2 < (r.lookup v).1.table.length := by
  unfold Reindexer.lookup
  cases h : idxOf r.table v with
  | some i => simpa using idxOf_lt h
  | none => simp

theorem lookup_getD (r : Reindexer V) (v : V) (d : V) :
    (r.lookup v).1.table.getD (r.lookup v).2 d = v := by
  unfold Reindexer.lookup
  cases h : idxOf r.table v with
  | some i => simpa using idxOf_getD d h
  | none =>
    simp only [List.getD_eq_getElem?_getD]
    rw [List.getElem?_append_right (Nat.le_refl _)]
    simp

theorem lookup_nodup {r : Reindexer V} (hnd : r.table.Nodup) (v : V) :
    (r.lookup v).1.table.Nodup := by
  unfold Reindexer.lookup
  cases h : idxOf r.table v with
  | some i => exact hnd
  | none =>
    have hv : v ∉ r.table := idxOf_eq_none.mp h
    simp [List.nodup_append, hnd, hv]

theorem lookup_mem (r : Reindexer V) (v : V) : v ∈ (r.lookup v).1.table := by
  have h := lookup_getD r v v
  have hlt := lookup_idx_lt r v
  have hm := getD_mem (l := (r.lookup v).1.table) v hlt
  rwa [h] at hm

/-! ### Consecutive-duplicate collapsing

`pushIdx` is the inner-loop step of `tessellate_faces` phase 1
(PolySetUtils.cc, line 84): a new index is appended only when the working face
is empty or the index differs from the current last entry.  `specCollapse` is
the specification-side characterization: collapse runs of consecutive equal
entries to a single occurrence. -/

/-- Embeds line 84 of PolySetUtils.cc:
`if (currface.empty() || idx != currface.back()) currface.push_back(idx);`. -/
def pushIdx (f : List V) (i : V) : List V :=
  match f.getLast? with
  | none => [i]
  | some j => if i = j then f else f ++ [i]

/-- Collapses consecutive duplicates after a fixed previous element. -/
def specCollapseAux (a : V) : List V → List V
  | [] => []
  | b :: rest => if b = a then specCollapseAux a rest else b :: specCollapseAux b rest

/-- Specification-side collapse of consecutive duplicate entries. -/
def specCollapse : List V → List V
  | [] => []
  | a :: rest => a :: specCollapseAux a rest

theorem getLast?_cons_eq_getLastD (a : V) (l : List V) :
    (a :: l).getLast? = some (l.getLastD a) := by
  induction l generalizing a with
  | nil => rfl
  | cons b l ih => rw [List.getLastD_cons]; exact ih b

theorem pushIdx_cons (a : V) (l : List V) (x : V) :
    pushIdx (a :: l) x = if x = l.getLastD a then a :: l else (a :: l) ++ [x] := by
  simp only [pushIdx, getLast?_cons_eq_getLastD]

theorem specCollapseAux_append (a : V) (l : List V) (x : V) :
    specCollapseAux a (l ++ [x]) =
      specCollapseAux a l ++
        (if x = (specCollapseAux a l).getLastD a then [] else [x]) := by
  induction l generalizing a with
  | nil => simp [specCollapseAux]
  | cons b l ih =>
    by_cases hb : b = a
    · subst hb
      simp only [List.cons_append, specCollapseAux, if_pos rfl]
      exact ih b
    · simp only [List.cons_append, specCollapseAux, if_neg hb, List.cons.injEq,
        true_and, List.getLastD_cons]
      exact ih b

theorem specCollapse_append (l : List V) (x : V) :
    specCollapse (l ++ [x]) = pushIdx (specCollapse l) x := by
  cases l with
  | nil => simp [specCollapse, specCollapseAux, pushIdx]
  | cons a rest =>
    show specCollapse (a :: (rest ++ [x])) = pushIdx (a :: specCollapseAux a rest) x
    rw [pushIdx_cons]
    simp only [specCollapse, List.cons.injEq]
    rw [specCollapseAux_append]
    by_cases hx : x = (specCollapseAux a rest).getLastD a
    · rw [if_pos hx, if_pos hx, List.append_nil]
    · rw [if_neg hx, if_neg hx, List.cons_append]

theorem specCollapseAux_chain (a : V) (l : List V) :
    List.Chain' (fun x y => x ≠ y) (a :: specCollapseAux a l) := by
  induction l generalizing a with
  | nil => simp [specCollapseAux]
  | cons b l ih =>
    by_cases hb : b = a
    · subst hb; simpa [specCollapseAux] using ih b
    · simp only [specCollapseAux, if_neg hb]
      rw [List.chain'_cons]
      exact ⟨Ne.symm hb, ih b⟩

/-- The collapsed face has no consecutive duplicate entries. -/
theorem specCollapse_chain (l : List V) :
    List.Chain' (fun x y => x ≠ y) (specCollapse l) := by
  cases l with
  | nil => simp [specCollapse]
  | cons a rest => exact specCollapseAux_chain a rest

theorem specCollapseAux_length_le (a : V) (l : List V) :
    (specCollapseAux a l).length ≤ l.length := by
  induction l generalizing a with
  | nil => simp [specCollapseAux]
  | cons b l ih =>
    by_cases hb : b = a
    · subst hb; simp only [specCollapseAux, if_pos rfl]
      exact le_trans (ih b) (by simp)
    · simp only [specCollapseAux, if_neg hb, List.length_cons]
      exact Nat.succ_le_succ (ih b)

theorem specCollapse_length_le (l : List V) :
    (specCollapse l).length ≤ l.length := by
  cases l with
  | nil => simp [specCollapse]
  | cons a rest =>
    simp only [specCollapse, List.length_cons]
    exact Nat.succ_le_succ (specCollapseAux_length_le a rest)

/-- Collapsing a list that already has no consecutive duplicates is the
identity. -/
theorem specCollapse_eq_self {l : List V}
    (h : List.Chain' (fun x y => x ≠ y) l) : specCollapse l = l := by
  cases l with
  | nil => rfl
  | cons a rest =>
    simp only [specCollapse, List.cons.injEq, true_and]
    induction rest generalizing a with
    | nil => rfl
    | cons b rest ih =>
      rw [List.chain'_cons] at h
      simp only [specCollapseAux, if_neg (Ne.symm h.1), List.cons.injEq, true_and]
      exact ih b h.2

/-- Embeds line 86 of PolySetUtils.cc:
`if (currface.front() == currface.back()) currface.pop_back();`
(for the empty list both sides are `none` and dropping the last element is
again the empty list, so no separate emptiness guard is needed). -/
def popClosing (f : List V) : List V :=
  if f.head? = f.getLast? then f.dropLast else f

theorem popClosing_length_le (f : List V) : (popClosing f).length ≤ f.length := by
  unfold popClosing
  split
  · rw [List.length_dropLast]; omega
  · exact le_refl _

theorem popClosing_chain {f : List V}
    (h : List.Chain' (fun x y => x ≠ y) f) :
    List.Chain' (fun x y => x ≠ y) (popClosing f) := by
  unfold popClosing
  split
  · have hpre := List.dropLast_prefix f
    exact List.Chain'.prefix h hpre
  · exact h

/-- After the closing-vertex pop, the head and the last entry of a collapsed
face of length at least 2 differ. -/
theorem popClosing_head_ne_last {f : List V}
    (hch : List.Chain' (fun x y => x ≠ y) f)
    (hlen : 2 ≤ (popClosing f).length) :
    (popClosing f).head? ≠ (popClosing f).getLast? := by
  by_cases heq : f.head? = f.getLast?
  · unfold popClosing at hlen ⊢
    rw [if_pos heq] at hlen ⊢
    -- the last element was popped; the new last is the penultimate entry,
    -- which differs from the old last = head by the chain property
    rcases hd : f.dropLast.head? with _ | a
    · rw [List.head?_eq_none_iff] at hd
      rw [hd] at hlen; simp at hlen
    rcases hl : f.dropLast.getLast? with _ | b
    · rw [List.getLast?_eq_none_iff] at hl
      rw [hl] at hlen; simp at hlen
    simp only [ne_eq, Option.some.injEq]
    intro hab
    subst hab
    -- f = dropLast f ++ [last]; head f = head of dropLast; the chain gives
    -- getLast dropLast ≠ last f, but heq says head f = last f
    have hdne : f.dropLast ≠ [] := by
      intro h0; rw [h0] at hd; simp at hd
    have hfne : f ≠ [] := by
      intro h0; subst h0; simp at hdne
    have hdecomp := List.dropLast_append_getLast hfne
    have hchain2 := hch
    rw [← hdecomp, List.chain'_append] at hchain2
    have hlast : a ≠ f.getLast hfne :=
      hchain2.2.2 a (Option.mem_def.mpr hl) (f.getLast hfne)
        (Option.mem_def.mpr (by simp))
    have hhead : f.head? = some a := by
      rw [← hdecomp, List.head?_append_of_ne_nil _ hdne]
      exact hd
    rw [hhead, List.getLast?_eq_getLast_of_ne_nil hfne] at heq
    have hcontra : a = f.getLast hfne := by simpa using heq
    exact hlast hcontra
  · unfold popClosing
    rw [if_neg heq]
    exact heq

/-! ### PolySet and the tessellator

`PolySet` is modelled from the spec (its header is not part of the excerpt):
an `IndexedMesh` (vertex array, faces as index lists) plus the metadata that
`tessellate_faces` carries forward (dimension, convex flag, convexity).  The
tessellator is generic over the vertex-position type `V`; the single-float
narrowing `v.cast<float>()` of PolySetUtils.cc line 83 is the parameter
function `fc` (floating point is not modelled; a widened float is identified
with its exact value, so the narrow-then-widen round trip is `fc` itself and
idempotence of the narrowing is the hypothesis `fc (fc v) = fc v`). -/

/-- Modelled from the spec: IndexedMesh / `PolySet` — ordered vertex
positions, faces as ordered index lists, with dimension and convexity
metadata. -/
structure PolySet (V : Type) where
  vertices : List V
  indices : List (List Nat)
  dim : Nat
  convexVal : Option Bool
  convexity : Int
deriving DecidableEq

/-- Modelled from the spec: `PolySet::setConvexity`. -/
def PolySet.setConvexity (ps : PolySet V) (c : Int) : PolySet V :=
  { ps with convexity := c }

section Tessellator

variable (fc : V → V)
variable (tess : List V → List (List Nat) → Option (List (Nat × Nat × Nat)))

/-- Embeds the body of the vertex loop of PolySetUtils.cc lines 79-85: look the
float-narrowed position up in the vertex table and append the index unless it
repeats the previous one. -/
def buildStep (vertices : List V) (st : Reindexer V × List Nat) (ind : Nat) :
    Reindexer V × List Nat :=
  let v := vertices.getD ind default
  let p := st.1.lookup (fc v)
  (p.1, pushIdx st.2 p.2)

/-- Embeds the vertex loop of PolySetUtils.cc lines 79-85 for one input face. -/
def buildFace (vertices : List V) (st : Reindexer V) (pgon : List Nat) :
    Reindexer V × List Nat :=
  pgon.foldl (buildStep fc vertices) (st, [])

/-- One step of the vertex loop with the consecutive-duplicate filter removed:
record every looked-up index. -/
def rawStep (vertices : List V) (st : Reindexer V × List Nat) (ind : Nat) :
    Reindexer V × List Nat :=
  let p := st.1.lookup (fc (vertices.getD ind default))
  (p.1, st.2 ++ [p.2])

/-- The same loop without the consecutive-duplicate filter: the raw sequence of
reindexed vertex indices of a face. -/
def buildRaw (vertices : List V) (st : Reindexer V) (pgon : List Nat) :
    Reindexer V × List Nat :=
  pgon.foldl (rawStep fc vertices) (st, [])

/-- State threaded through phase 1 of `tessellate_faces`: the vertex table, the
kept (collapsed, reindexed) faces, and the degenerate-face counter. -/
structure P1State (V : Type) [DecidableEq V] where
  r : Reindexer V
  polys : List (List Nat)
  degen : Nat

/-- Embeds the body of the face loop of PolySetUtils.cc lines 69-91: skip and
count faces with fewer than 3 vertices; otherwise reindex-and-collapse the
face, pop the closing vertex, and cull it if fewer than 3 indices remain.
(In the source each entry of `polygons` holds exactly one `IndexedFace`, and a
culled face pops both the face and its `polygons` entry, so the net state is a
flat list of kept faces.) -/
def phase1Step (vertices : List V) (s : P1State V) (pgon : List Nat) :
    P1State V :=
  if pgon.length < 3 then { s with degen := s.degen + 1 }
  else
    let bf := buildFace fc vertices s.r pgon
    let f := popClosing bf.2
    if f.length < 3 then { s with r := bf.1 }
    else { s with r := bf.1, polys := s.polys ++ [f] }

/-- Modelled from the spec: `PolySetBuilder` — deduplicates vertices into a
dense array, producing canonical indices, and accumulates output polygons. -/
structure Builder (V : Type) [DecidableEq V] where
  r : Reindexer V
  polys : List (List Nat)
  dim : Nat
  convexVal : Option Bool
  convexity : Int

/-- Modelled from the spec: `PolySetBuilder::vertexIndex` inserts a vertex into
the builder's deduplicating table (the call sites in the excerpt discard the
returned index). -/
def Builder.vertexIndex (b : Builder V) (v : V) : Builder V :=
  { b with r := (b.r.lookup v).1 }

/-- Modelled from the spec: `PolySetBuilder::appendPoly` appends one output
polygon given by vertex indices. -/
def Builder.appendPoly (b : Builder V) (f : List Nat) : Builder V :=
  { b with polys := b.polys ++ [f] }

/-- Modelled from the spec: `PolySetBuilder::build` produces the `PolySet` with
the accumulated dense vertex array and polygons. -/
def Builder.build (b : Builder V) : PolySet V :=
  { vertices := b.r.table, indices := b.polys, dim := b.dim,
    convexVal := b.convexVal, convexity := b.convexity }

/-- Embeds the body of the output loop of PolySetUtils.cc lines 107-123 for one
kept face: a 3-index face is emitted as-is; longer faces go to the external
triangulator `tess` (`GeometryUtils::tessellatePolygonWithHoles`, not part of
the excerpt; `none` models a returned error, in which case the face's
triangles are silently skipped). -/
def faceTrisIdx (verts : List V) (f : List Nat) : List (List Nat) :=
  if f.length = 3 then [[f.getD 0 0, f.getD 1 0, f.getD 2 0]]
  else
    match tess verts [f] with
    | some ts => ts.map (fun t => [t.1, t.2.1, t.2.2])
    | none => []

/-- Embeds `PolySetUtils::tessellate_faces` (PolySetUtils.cc lines 55-128).
Returns the built `PolySet` and the degenerate-polygon counter (the source
logs one aggregate warning iff the counter is positive). -/
def tessellate_faces (ps : PolySet V) : PolySet V × Nat :=
  let s := ps.indices.foldl (phase1Step fc ps.vertices) ⟨⟨[]⟩, [], 0⟩
  let verts := s.r.table
  let b0 : Builder V :=
    { r := ⟨[]⟩, polys := [], dim := ps.dim, convexVal := ps.convexVal,
      convexity := ps.convexity }
  let b1 := verts.foldl Builder.vertexIndex b0
  let b2 := s.polys.foldl
    (fun b f => (faceTrisIdx tess verts f).foldl Builder.appendPoly b) b1
  (b2.build, s.degen)

end Tessellator

/-! ### Specification-side views of the tessellator -/

/-- Position of table index `i` (out-of-range reads give the default value,
mirroring the C++ indexing which is only exercised in range). -/
def posOf (t : List V) (i : Nat) : V := t.getD i default

/-- The float-narrowed positions of a face's vertices, in face order. -/
def facePos (fc : V → V) (vertices : List V) (pgon : List Nat) : List V :=
  pgon.map (fun ind => fc (vertices.getD ind default))

/-- The value-level result of phase 1 for one face: narrow positions, collapse
consecutive duplicates, pop the closing vertex. -/
def specFace (fc : V → V) (vertices : List V) (pgon : List Nat) : List V :=
  popClosing (specCollapse (facePos fc vertices pgon))

/-- The value-level list of faces kept by phase 1: faces of size at least 3,
collapsed, and kept only when at least 3 indices remain. -/
def specKeptFaces (fc : V → V) (vertices : List V) (faces : List (List Nat)) :
    List (List V) :=
  ((faces.filter (fun p => decide (3 ≤ p.length))).map
      (specFace fc vertices)).filter (fun f => decide (3 ≤ f.length))

/-- Faces of the output mesh as position lists. -/
def posFaces (ps : PolySet V) : List (List V) :=
  ps.indices.map (List.map (posOf ps.vertices))

/-! ### The vertex loop versus its specification -/

theorem lookup_table_sub (r : Reindexer V) (v : V) {w : V}
    (hw : w ∈ (r.lookup v).1.table) : w ∈ r.table ∨ w = v := by
  unfold Reindexer.lookup at hw
  cases h : idxOf r.table v with
  | some i => rw [h] at hw; exact Or.inl hw
  | none =>
    rw [h] at hw
    simp only [List.mem_append, List.mem_singleton] at hw
    exact hw

theorem buildFold_spec (fc : V → V) (vertices : List V) (pgon : List Nat) :
    ∀ (st : Reindexer V) (l0 : List Nat),
      pgon.foldl (buildStep fc vertices) (st, specCollapse l0)
        = ((pgon.foldl (rawStep fc vertices) (st, l0)).1,
           specCollapse (pgon.foldl (rawStep fc vertices) (st, l0)).2) := by
  induction pgon with
  | nil => intro st l0; rfl
  | cons i rest ih =>
    intro st l0
    simp only [List.foldl_cons]
    have hstep : buildStep fc vertices (st, specCollapse l0) i
        = ((st.lookup (fc (vertices.getD i default))).1,
           specCollapse (l0 ++ [(st.lookup (fc (vertices.getD i default))).2])) := by
      simp only [buildStep, specCollapse_append]
    rw [hstep]
    have hraw : rawStep fc vertices (st, l0) i
        = ((st.lookup (fc (vertices.getD i default))).1,
           l0 ++ [(st.lookup (fc (vertices.getD i default))).2]) := rfl
    rw [hraw]
    exact ih _ _

/-- The collapsed working face is exactly the spec-side collapse of the raw
index sequence, and the vertex table evolves identically. -/
theorem buildFace_eq_raw (fc : V → V) (vertices : List V) (st : Reindexer V)
    (pgon : List Nat) :
    buildFace fc vertices st pgon
      = ((buildRaw fc vertices st pgon).1,
         specCollapse (buildRaw fc vertices st pgon).2) := by
  have h := buildFold_spec fc vertices pgon st []
  simpa [buildFace, buildRaw, specCollapse] using h

/-- Main invariants of the raw vertex loop: the table only grows, stays
duplicate-free, all produced indices are in range, the produced indices
denote exactly the narrowed positions of the face, every narrowed position of
the face is in the final table, and new table entries are narrowed values. -/
theorem rawFold_spec (fc : V → V) (vertices : List V) (pgon : List Nat) :
    ∀ (st : Reindexer V) (acc : List Nat),
      (∀ i ∈ acc, i < st.table.length) →
      TableExt st.table (pgon.foldl (rawStep fc vertices) (st, acc)).1.table
      ∧ (st.table.Nodup →
          (pgon.foldl (rawStep fc vertices) (st, acc)).1.table.Nodup)
      ∧ (∀ i ∈ (pgon.foldl (rawStep fc vertices) (st, acc)).2,
          i < (pgon.foldl (rawStep fc vertices) (st, acc)).1.table.length)
      ∧ ((pgon.foldl (rawStep fc vertices) (st, acc)).2).map
            (posOf (pgon.foldl (rawStep fc vertices) (st, acc)).1.table)
          = acc.map (posOf st.table) ++ facePos fc vertices pgon
      ∧ (∀ ind ∈ pgon,
          fc (vertices.getD ind default)
            ∈ (pgon.foldl (rawStep fc vertices) (st, acc)).1.table)
      ∧ (∀ w ∈ (pgon.foldl (rawStep fc vertices) (st, acc)).1.table,
          w ∈ st.table ∨ ∃ u, w = fc u) := by
  induction pgon with
  | nil =>
    intro st acc hacc
    refine ⟨TableExt.refl _, fun h => h, hacc, ?_, by simp, fun w hw => Or.inl hw⟩
    simp [facePos]
  | cons i rest ih =>
    intro st acc hacc
    simp only [List.foldl_cons]
    set v := fc (vertices.getD i default) with hv
    set p := st.lookup v with hp
    have hstep : rawStep fc vertices (st, acc) i = (p.1, acc ++ [p.2]) := rfl
    rw [hstep]
    have hext1 : TableExt st.table p.1.table := lookup_ext st v
    have hlt1 : p.2 < p.1.table.length := lookup_idx_lt st v
    have hacc1 : ∀ j ∈ acc ++ [p.2], j < p.1.table.length := by
      intro j hj
      rcases List.mem_append.mp hj with hj | hj
      · exact lt_of_lt_of_le (hacc j hj) hext1.length_le
      · simp at hj; omega
    obtain ⟨hext2, hnd2, hbound2, hmap2, hmem2, hprov2⟩ := ih p.1 (acc ++ [p.2]) hacc1
    refine ⟨hext1.trans hext2, ?_, hbound2, ?_, ?_, ?_⟩
    · intro hnd
      exact hnd2 (lookup_nodup hnd v)
    · rw [hmap2]
      have hmap_acc : (acc ++ [p.2]).map (posOf p.1.table)
          = acc.map (posOf st.table) ++ [v] := by
        rw [List.map_append]
        congr 1
        · apply List.map_congr_left
          intro j hj
          exact hext1.getD_eq (hacc j hj) default
        · simp only [List.map_cons, List.map_nil, List.cons.injEq, and_true]
          exact lookup_getD st v default
      rw [hmap_acc]
      simp [facePos, hv, List.getD_eq_getElem?_getD]
    · intro ind hind
      rcases List.mem_cons.mp hind with rfl | hind
      · exact hext2.mem (lookup_mem st v)
      · exact hmem2 ind hind
    · intro w hw
      rcases hprov2 w hw with hw1 | hw1
      · rcases lookup_table_sub st v hw1 with hw2 | hw2
        · exact Or.inl hw2
        · exact Or.inr ⟨vertices.getD i default, hw2⟩
      · exact Or.inr hw1

/-! ### Mapping indices to positions commutes with collapsing -/

theorem specCollapseAux_subset (a : V) {l : List V} {x : V}
    (hx : x ∈ specCollapseAux a l) : x ∈ l := by
  induction l generalizing a with
  | nil => simp [specCollapseAux] at hx
  | cons b l ih =>
    by_cases hb : b = a
    · subst hb
      rw [specCollapseAux, if_pos rfl] at hx
      exact List.mem_cons_of_mem _ (ih b hx)
    · rw [specCollapseAux, if_neg hb] at hx
      rcases List.mem_cons.mp hx with rfl | hx
      · exact List.mem_cons_self _ _
      · exact List.mem_cons_of_mem _ (ih b hx)

theorem specCollapse_subset {l : List V} {x : V} (hx : x ∈ specCollapse l) :
    x ∈ l := by
  cases l with
  | nil => simp [specCollapse] at hx
  | cons a rest =>
    rcases List.mem_cons.mp hx with rfl | hx
    · exact List.mem_cons_self _ _
    · exact List.mem_cons_of_mem _ (specCollapseAux_subset a hx)

variable {W : Type} [DecidableEq W] [Inhabited W]

theorem map_specCollapseAux (g : V → W) (a : V) (l : List V)
    (hinj : ∀ x ∈ a :: l, ∀ y ∈ a :: l, g x = g y → x = y) :
    (specCollapseAux a l).map g = specCollapseAux (g a) (l.map g) := by
  induction l generalizing a with
  | nil => rfl
  | cons b l ih =>
    have hsub1 : ∀ c ∈ a :: l, c ∈ a :: b :: l := by
      intro c hc; simp at hc ⊢; tauto
    have hsub2 : ∀ c ∈ b :: l, c ∈ a :: b :: l := by
      intro c hc; simp at hc ⊢; tauto
    have hba : b = a ↔ g b = g a :=
      ⟨fun h => h ▸ rfl,
       fun h => hinj b (by simp) a (by simp) h⟩
    by_cases hb : b = a
    · rw [specCollapseAux, if_pos hb, List.map_cons, specCollapseAux,
        if_pos (hba.mp hb)]
      exact ih a (fun x hx y hy => hinj x (hsub1 x hx) y (hsub1 y hy))
    · rw [specCollapseAux, if_neg hb, List.map_cons, List.map_cons,
        specCollapseAux, if_neg (fun h => hb (hba.mpr h))]
      rw [ih b (fun x hx y hy => hinj x (hsub2 x hx) y (hsub2 y hy))]

theorem map_specCollapse (g : V → W) (l : List V)
    (hinj : ∀ x ∈ l, ∀ y ∈ l, g x = g y → x = y) :
    (specCollapse l).map g = specCollapse (l.map g) := by
  cases l with
  | nil => rfl
  | cons a rest =>
    rw [specCollapse, List.map_cons, List.map_cons, specCollapse]
    rw [map_specCollapseAux g a rest hinj]

theorem map_popClosing (g : V → W) (f : List V)
    (hinj : ∀ x ∈ f, ∀ y ∈ f, g x = g y → x = y) :
    (popClosing f).map g = popClosing (f.map g) := by
  unfold popClosing
  have hcond : f.head? = f.getLast? ↔ (f.map g).head? = (f.map g).getLast? := by
    rw [List.head?_map, List.getLast?_map]
    constructor
    · intro h; rw [h]
    · intro h
      cases hh : f.head? with
      | none =>
        rw [List.head?_eq_none_iff] at hh
        subst hh; rfl
      | some a =>
        cases hl : f.getLast? with
        | none =>
          rw [List.getLast?_eq_none_iff] at hl
          subst hl; simp at hh
        | some b =>
          rw [hh, hl] at h
          simp only [Option.map_some', Option.some.injEq] at h
          have ha : a ∈ f := by
            have := List.mem_of_mem_head? (Option.mem_def.mpr hh)
            exact this
          have hb : b ∈ f := by
            rcases List.mem_getLast?_eq_getLast (Option.mem_def.mpr hl) with ⟨hne, rfl⟩
            exact List.getLast_mem hne
          rw [hinj a ha b hb h]
  by_cases hc : f.head? = f.getLast?
  · rw [if_pos hc, if_pos (hcond.mp hc), List.map_dropLast]
  · rw [if_neg hc, if_neg (fun h => hc (hcond.mpr h))]

/-- The per-face workhorse: for a well-formed starting table, the collapsed
face produced by the vertex loop denotes (via the final table) exactly the
spec-side collapse of the face's narrowed positions, with the table invariants
carried along. -/
theorem buildFace_spec (fc : V → V) (vertices : List V) (st : Reindexer V)
    (pgon : List Nat) (hnd : st.table.Nodup) :
    TableExt st.table (buildFace fc vertices st pgon).1.table
    ∧ (buildFace fc vertices st pgon).1.table.Nodup
    ∧ (∀ i ∈ (buildFace fc vertices st pgon).2,
        i < (buildFace fc vertices st pgon).1.table.length)
    ∧ ((buildFace fc vertices st pgon).2).map
          (posOf (buildFace fc vertices st pgon).1.table)
        = specCollapse (facePos fc vertices pgon)
    ∧ (∀ ind ∈ pgon,
        fc (vertices.getD ind default) ∈ (buildFace fc vertices st pgon).1.table)
    ∧ (∀ w ∈ (buildFace fc vertices st pgon).1.table,
        w ∈ st.table ∨ ∃ u, w = fc u) := by
  obtain ⟨hext, hndf, hbound, hmap, hmem, hprov⟩ :=
    rawFold_spec fc vertices pgon st [] (by simp)
  have hraw := buildFace_eq_raw fc vertices st pgon
  simp only [buildRaw] at hraw
  have h1 : (buildFace fc vertices st pgon).1
      = (pgon.foldl (rawStep fc vertices) (st, [])).1 := by rw [hraw]
  have h2 : (buildFace fc vertices st pgon).2
      = specCollapse (pgon.foldl (rawStep fc vertices) (st, [])).2 := by rw [hraw]
  rw [h1, h2]
  have hndT := hndf hnd
  have hinj : ∀ x ∈ (pgon.foldl (rawStep fc vertices) (st, [])).2,
      ∀ y ∈ (pgon.foldl (rawStep fc vertices) (st, [])).2,
      posOf (pgon.foldl (rawStep fc vertices) (st, [])).1.table x
        = posOf (pgon.foldl (rawStep fc vertices) (st, [])).1.table y → x = y := by
    intro x hx y hy hxy
    exact nodup_getD_inj hndT default (hbound x hx) (hbound y hy) hxy
  refine ⟨hext, hndT, ?_, ?_, hmem, hprov⟩
  · intro i hi
    exact hbound i (specCollapse_subset hi)
  · rw [map_specCollapse _ _ hinj, hmap]
    simp

/-- The face kept after the closing-vertex pop denotes the spec-side
`specFace`, with matching length and in-range indices. -/
theorem popFace_spec (fc : V → V) (vertices : List V) (st : Reindexer V)
    (pgon : List Nat) (hnd : st.table.Nodup) :
    (popClosing (buildFace fc vertices st pgon).2).map
        (posOf (buildFace fc vertices st pgon).1.table)
      = specFace fc vertices pgon
    ∧ (popClosing (buildFace fc vertices st pgon).2).length
        = (specFace fc vertices pgon).length
    ∧ (∀ i ∈ popClosing (buildFace fc vertices st pgon).2,
        i < (buildFace fc vertices st pgon).1.table.length) := by
  obtain ⟨hext, hndT, hbound, hmap, hmem, hprov⟩ :=
    buildFace_spec fc vertices st pgon hnd
  have hinj : ∀ x ∈ (buildFace fc vertices st pgon).2,
      ∀ y ∈ (buildFace fc vertices st pgon).2,
      posOf (buildFace fc vertices st pgon).1.table x
        = posOf (buildFace fc vertices st pgon).1.table y → x = y := by
    intro x hx y hy hxy
    exact nodup_getD_inj hndT default (hbound x hx) (hbound y hy) hxy
  have hcomm := map_popClosing
    (posOf (buildFace fc vertices st pgon).1.table)
    (buildFace fc vertices st pgon).2 hinj
  have hfm : (popClosing (buildFace fc vertices st pgon).2).map
      (posOf (buildFace fc vertices st pgon).1.table)
      = specFace fc vertices pgon := by
    rw [hcomm, hmap]; rfl
  refine ⟨hfm, ?_, ?_⟩
  · have := congrArg List.length hfm
    simpa using this
  · intro i hi
    have hsub : popClosing (buildFace fc vertices st pgon).2
        ⊆ (buildFace fc vertices st pgon).2 := by
      unfold popClosing
      split
      · have hpre := List.dropLast_prefix (buildFace fc vertices st pgon).2
        exact hpre.subset
      · exact fun a ha => ha
    exact hbound i (hsub hi)

theorem specKeptFaces_cons (fc : V → V) (vertices : List V) (pgon : List Nat)
    (rest : List (List Nat)) :
    specKeptFaces fc vertices (pgon :: rest)
      = (if 3 ≤ pgon.length then
           (if 3 ≤ (specFace fc vertices pgon).length
            then [specFace fc vertices pgon] else [])
         else []) ++ specKeptFaces fc vertices rest := by
  by_cases h1 : 3 ≤ pgon.length
  · by_cases h2 : 3 ≤ (specFace fc vertices pgon).length
    · simp [specKeptFaces, h1, h2]
    · simp [specKeptFaces, h1, h2]
  · simp [specKeptFaces, h1]

/-- Main invariants of phase 1 of `tessellate_faces` over a whole face list:
the table grows and stays duplicate-free, kept faces index into the table, the
kept faces denote exactly `specKeptFaces`, the degenerate counter counts the
faces with fewer than 3 vertices, every narrowed position referenced by a face
of size at least 3 ends up in the table, and table entries are narrowed
values. -/
theorem phase1_spec (fc : V → V) (vertices : List V) (faces : List (List Nat)) :
    ∀ (s : P1State V), s.r.table.Nodup →
      (∀ f ∈ s.polys, ∀ i ∈ f, i < s.r.table.length) →
      TableExt s.r.table (faces.foldl (phase1Step fc vertices) s).r.table
      ∧ (faces.foldl (phase1Step fc vertices) s).r.table.Nodup
      ∧ (∀ f ∈ (faces.foldl (phase1Step fc vertices) s).polys,
          ∀ i ∈ f, i < (faces.foldl (phase1Step fc vertices) s).r.table.length)
      ∧ ((faces.foldl (phase1Step fc vertices) s).polys).map
            (List.map (posOf (faces.foldl (phase1Step fc vertices) s).r.table))
          = s.polys.map (List.map (posOf s.r.table))
              ++ specKeptFaces fc vertices faces
      ∧ (faces.foldl (phase1Step fc vertices) s).degen
          = s.degen + (faces.filter (fun p => decide (p.length < 3))).length
      ∧ (∀ pgon ∈ faces, 3 ≤ pgon.length → ∀ ind ∈ pgon,
          fc (vertices.getD ind default)
            ∈ (faces.foldl (phase1Step fc vertices) s).r.table)
      ∧ (∀ w ∈ (faces.foldl (phase1Step fc vertices) s).r.table,
          w ∈ s.r.table ∨ ∃ u, w = fc u) := by
  induction faces with
  | nil =>
    intro s hnd hpoly
    refine ⟨TableExt.refl _, hnd, hpoly, ?_, ?_, by simp, fun w hw => Or.inl hw⟩
    · simp [specKeptFaces]
    · simp
  | cons pgon rest ih =>
    intro s hnd hpoly
    simp only [List.foldl_cons]
    by_cases hshort : pgon.length < 3
    · have hstep : phase1Step fc vertices s pgon = { s with degen := s.degen + 1 } := by
        rw [phase1Step, if_pos hshort]
      rw [hstep]
      obtain ⟨q1, q2, q3, q4, q5, q6, q7⟩ := ih { s with degen := s.degen + 1 } hnd hpoly
      refine ⟨q1, q2, q3, ?_, ?_, ?_, q7⟩
      · rw [q4, specKeptFaces_cons]
        rw [if_neg (by omega)]
        simp
      · rw [q5]
        simp only [List.filter_cons, decide_eq_true_eq, if_pos hshort]
        simp; omega
      · intro p hp hlen ind hind
        rcases List.mem_cons.mp hp with rfl | hp
        · omega
        · exact q6 p hp hlen ind hind
    · obtain ⟨hfm, hflen, hfbound⟩ := popFace_spec fc vertices s.r pgon hnd
      obtain ⟨hext, hndT, hbound, hmap, hmem, hprov⟩ :=
        buildFace_spec fc vertices s.r pgon hnd
      by_cases hcull : (popClosing (buildFace fc vertices s.r pgon).2).length < 3
      · have hstep : phase1Step fc vertices s pgon
            = { s with r := (buildFace fc vertices s.r pgon).1 } := by
          rw [phase1Step, if_neg hshort]
          simp only []
          rw [if_pos hcull]
        rw [hstep]
        have hpoly1 : ∀ f ∈ s.polys, ∀ i ∈ f,
            i < (buildFace fc vertices s.r pgon).1.table.length := by
          intro f hf i hi
          exact lt_of_lt_of_le (hpoly f hf i hi) hext.length_le
        obtain ⟨q1, q2, q3, q4, q5, q6, q7⟩ :=
          ih { s with r := (buildFace fc vertices s.r pgon).1 } hndT hpoly1
        refine ⟨hext.trans q1, q2, q3, ?_, ?_, ?_, ?_⟩
        · rw [q4, specKeptFaces_cons]
          rw [if_pos (by omega), if_neg (by omega)]
          simp only [List.nil_append]
          congr 1
          apply List.map_congr_left
          intro f hf
          apply List.map_congr_left
          intro i hi
          exact hext.getD_eq (hpoly f hf i hi) default
        · rw [q5]
          simp only [List.filter_cons, decide_eq_true_eq, if_neg hshort]
        · intro p hp hlen ind hind
          rcases List.mem_cons.mp hp with rfl | hp
          · exact q1.mem (hmem ind hind)
          · exact q6 p hp hlen ind hind
        · intro w hw
          rcases q7 w hw with hw1 | hw1
          · rcases hprov w hw1 with hw2 | hw2
            · exact Or.inl hw2
            · exact Or.inr hw2
          · exact Or.inr hw1
      · have hstep : phase1Step fc vertices s pgon
            = { s with r := (buildFace fc vertices s.r pgon).1,
                       polys := s.polys
                         ++ [popClosing (buildFace fc vertices s.r pgon).2] } := by
          rw [phase1Step, if_neg hshort]
          simp only []
          rw [if_neg hcull]
        rw [hstep]
        have hpoly1 : ∀ f ∈ s.polys
              ++ [popClosing (buildFace fc vertices s.r pgon).2], ∀ i ∈ f,
            i < (buildFace fc vertices s.r pgon).1.table.length := by
          intro f hf i hi
          rcases List.mem_append.mp hf with hf | hf
          · exact lt_of_lt_of_le (hpoly f hf i hi) hext.length_le
          · rw [List.mem_singleton] at hf
            subst hf
            exact hfbound i hi
        obtain ⟨q1, q2, q3, q4, q5, q6, q7⟩ :=
          ih { s with r := (buildFace fc vertices s.r pgon).1,
                      polys := s.polys
                        ++ [popClosing (buildFace fc vertices s.r pgon).2] }
            hndT hpoly1
        refine ⟨hext.trans q1, q2, q3, ?_, ?_, ?_, ?_⟩
        · rw [q4, specKeptFaces_cons]
          rw [if_pos (by omega), if_pos (by omega)]
          simp only [List.map_append]
          rw [List.append_assoc]
          congr 1
          · apply List.map_congr_left
            intro f hf
            apply List.map_congr_left
            intro i hi
            exact hext.getD_eq (hpoly f hf i hi) default
          · congr 1
            simp only [List.map_cons, List.map_nil]
            rw [hfm]
        · rw [q5]
          simp only [List.filter_cons, decide_eq_true_eq, if_neg hshort]
        · intro p hp hlen ind hind
          rcases List.mem_cons.mp hp with rfl | hp
          · exact q1.mem (hmem ind hind)
          · exact q6 p hp hlen ind hind
        · intro w hw
          rcases q7 w hw with hw1 | hw1
          · rcases hprov w hw1 with hw2 | hw2
            · exact Or.inl hw2
            · exact Or.inr hw2
          · exact Or.inr hw1

/-! ### Builder lemmas and the structural form of `tessellate_faces` -/

theorem lookup_not_mem {r : Reindexer V} {v : V} (h : v ∉ r.table) :
    r.lookup v = (⟨r.table ++ [v]⟩, r.table.length) := by
  unfold Reindexer.lookup
  rw [idxOf_eq_none.mpr h]

/-- Re-inserting a duplicate-free vertex list into an empty builder reproduces
it unchanged (the builder deduplication finds nothing to merge). -/
theorem vertexIndex_fold (l : List V) :
    ∀ (b : Builder V), (b.r.table ++ l).Nodup →
      l.foldl Builder.vertexIndex b = { b with r := ⟨b.r.table ++ l⟩ } := by
  induction l with
  | nil =>
    intro b h
    simp only [List.foldl_nil, List.append_nil]
  | cons v l ih =>
    intro b h
    simp only [List.foldl_cons]
    have hv : v ∉ b.r.table := by
      rw [List.nodup_append] at h
      intro hv
      exact h.2.2 hv (List.mem_cons_self _ _)
    have hstep : Builder.vertexIndex b v = { b with r := ⟨b.r.table ++ [v]⟩ } := by
      rw [Builder.vertexIndex, lookup_not_mem hv]
    rw [hstep]
    have h2 : ((b.r.table ++ [v]) ++ l).Nodup := by
      rw [List.append_assoc, List.singleton_append]
      exact h
    have := ih { b with r := ⟨b.r.table ++ [v]⟩ } h2
    rw [this]
    simp [List.append_assoc]

theorem appendPoly_fold (ts : List (List Nat)) :
    ∀ (b : Builder V), ts.foldl Builder.appendPoly b
      = { b with polys := b.polys ++ ts } := by
  induction ts with
  | nil => intro b; simp only [List.foldl_nil, List.append_nil]
  | cons t ts ih =>
    intro b
    simp only [List.foldl_cons]
    rw [show Builder.appendPoly b t = { b with polys := b.polys ++ [t] } from rfl]
    rw [ih]
    simp [List.append_assoc]

theorem phase2_fold (tess : List V → List (List Nat) → Option (List (Nat × Nat × Nat)))
    (verts : List V) (polys : List (List Nat)) :
    ∀ (b : Builder V),
      polys.foldl (fun b f => (faceTrisIdx tess verts f).foldl Builder.appendPoly b) b
        = { b with polys := b.polys ++ (polys.map (faceTrisIdx tess verts)).flatten } := by
  induction polys with
  | nil => intro b; simp only [List.foldl_nil, List.map_nil, List.flatten_nil, List.append_nil]
  | cons f polys ih =>
    intro b
    simp only [List.foldl_cons]
    rw [appendPoly_fold, ih]
    simp [List.append_assoc]

/-- Structural form of `tessellate_faces`: the output vertices are exactly the
phase-1 vertex table, the output faces are the per-face triangles of the kept
faces flattened in order, the metadata is carried over, and the counter is the
phase-1 degenerate count. -/
theorem tessellate_eq (fc : V → V)
    (tess : List V → List (List Nat) → Option (List (Nat × Nat × Nat)))
    (ps : PolySet V) :
    tessellate_faces fc tess ps
      = ({ vertices :=
             (ps.indices.foldl (phase1Step fc ps.vertices) ⟨⟨[]⟩, [], 0⟩).r.table,
           indices :=
             (((ps.indices.foldl (phase1Step fc ps.vertices) ⟨⟨[]⟩, [], 0⟩).polys).map
               (faceTrisIdx tess
                 (ps.indices.foldl (phase1Step fc ps.vertices) ⟨⟨[]⟩, [], 0⟩).r.table)).flatten,
           dim := ps.dim, convexVal := ps.convexVal, convexity := ps.convexity },
         (ps.indices.foldl (phase1Step fc ps.vertices) ⟨⟨[]⟩, [], 0⟩).degen) := by
  obtain ⟨hext, hnd, -, -, -, -, -⟩ :=
    phase1_spec fc ps.vertices ps.indices ⟨⟨[]⟩, [], 0⟩ (by simp) (by simp)
  unfold tessellate_faces
  simp only []
  rw [vertexIndex_fold _ _ (by simpa using hnd)]
  rw [phase2_fold]
  simp only [Builder.build, List.nil_append]

/-! ### Claims C5, C6, C10 -/

/-- C5: Within every face processed by `tessellate_faces` (at least 3 input
vertices), consecutive duplicate vertex indices obtained from the
single-precision reindexing are collapsed to a single occurrence
(`specCollapse` of the raw index sequence, hence no consecutive duplicates
remain); if the first and last indices of the collapsed cycle are equal the
trailing duplicate is dropped (and only then); and the face is kept in the
phase-1 output exactly when at least 3 indices remain, otherwise it is
dropped. -/
theorem claim_C5 (fc : V → V) (vertices : List V) (st : Reindexer V)
    (pgon : List Nat) (hp : 3 ≤ pgon.length) :
    (buildFace fc vertices st pgon).1 = (buildRaw fc vertices st pgon).1
    ∧ (buildFace fc vertices st pgon).2
        = specCollapse (buildRaw fc vertices st pgon).2
    ∧ List.Chain' (fun x y => x ≠ y) ((buildFace fc vertices st pgon).2)
    ∧ ((buildFace fc vertices st pgon).2.head?
          = (buildFace fc vertices st pgon).2.getLast? →
        popClosing ((buildFace fc vertices st pgon).2)
          = ((buildFace fc vertices st pgon).2).dropLast)
    ∧ ((buildFace fc vertices st pgon).2.head?
          ≠ (buildFace fc vertices st pgon).2.getLast? →
        popClosing ((buildFace fc vertices st pgon).2)
          = (buildFace fc vertices st pgon).2)
    ∧ (∀ (polys : List (List Nat)) (degen : Nat),
        phase1Step fc vertices ⟨st, polys, degen⟩ pgon
          = ⟨(buildFace fc vertices st pgon).1,
             polys ++
               (if 3 ≤ (popClosing (buildFace fc vertices st pgon).2).length
                then [popClosing (buildFace fc vertices st pgon).2] else []),
             degen⟩) := by
  have hraw := buildFace_eq_raw fc vertices st pgon
  refine ⟨by rw [hraw], by rw [hraw], ?_, ?_, ?_, ?_⟩
  · rw [hraw]
    exact specCollapse_chain _
  · intro h
    rw [popClosing, if_pos h]
  · intro h
    rw [popClosing, if_neg h]
  · intro polys degen
    rw [phase1Step, if_neg (by omega)]
    simp only []
    by_cases hcull : (popClosing (buildFace fc vertices st pgon).2).length < 3
    · rw [if_pos hcull, if_neg (by omega)]
      simp
    · rw [if_neg hcull, if_pos (by omega)]

theorem claim_C5_witness :
    (buildFace (V := Nat) id [5, 5, 7] ⟨[]⟩ [0, 1, 2, 0]).2
        = specCollapse (buildRaw (V := Nat) id [5, 5, 7] ⟨[]⟩ [0, 1, 2, 0]).2
    ∧ (∀ (polys : List (List Nat)) (degen : Nat),
        phase1Step (V := Nat) id [5, 5, 7] ⟨⟨[]⟩, polys, degen⟩ [0, 1, 2, 0]
          = ⟨(buildFace (V := Nat) id [5, 5, 7] ⟨[]⟩ [0, 1, 2, 0]).1,
             polys ++
               (if 3 ≤ (popClosing
                   (buildFace (V := Nat) id [5, 5, 7] ⟨[]⟩ [0, 1, 2, 0]).2).length
                then [popClosing
                   (buildFace (V := Nat) id [5, 5, 7] ⟨[]⟩ [0, 1, 2, 0]).2] else []),
             degen⟩)
    ∧ (buildFace (V := Nat) id [5, 5, 7] ⟨[]⟩ [0, 1, 2, 0]).2 = [0, 1, 0] := by
  have h := claim_C5 (V := Nat) id [5, 5, 7] ⟨[]⟩ [0, 1, 2, 0] (by decide)
  exact ⟨h.2.1, h.2.2.2.2.2, by decide⟩

/-- Phase 1 ignores faces with fewer than 3 vertices except for counting them:
folding over the kept faces only produces the same table and kept-face list. -/
theorem phase1_filter (fc : V → V) (vertices : List V) (faces : List (List Nat)) :
    ∀ (s₁ s₂ : P1State V), s₁.r = s₂.r → s₁.polys = s₂.polys →
      ((faces.filter (fun p => decide (3 ≤ p.length))).foldl
          (phase1Step fc vertices) s₁).r
        = (faces.foldl (phase1Step fc vertices) s₂).r
      ∧ ((faces.filter (fun p => decide (3 ≤ p.length))).foldl
          (phase1Step fc vertices) s₁).polys
        = (faces.foldl (phase1Step fc vertices) s₂).polys := by
  induction faces with
  | nil => intro s₁ s₂ hr hp; exact ⟨hr, hp⟩
  | cons pgon rest ih =>
    intro s₁ s₂ hr hp
    by_cases hlen : 3 ≤ pgon.length
    · have hstep : ∀ s : P1State V, phase1Step fc vertices s pgon
          = { s with r := (buildFace fc vertices s.r pgon).1,
                     polys := s.polys ++
                       (if 3 ≤ (popClosing (buildFace fc vertices s.r pgon).2).length
                        then [popClosing (buildFace fc vertices s.r pgon).2]
                        else []) } := by
        intro s
        rw [phase1Step, if_neg (by omega)]
        simp only []
        by_cases hcull : (popClosing (buildFace fc vertices s.r pgon).2).length < 3
        · rw [if_pos hcull, if_neg (by omega)]
          simp
        · rw [if_neg hcull, if_pos (by omega)]
      rw [List.filter_cons, if_pos (by simpa using hlen)]
      simp only [List.foldl_cons]
      rw [hstep s₁, hstep s₂]
      apply ih
      · simp [hr]
      · simp [hr, hp]
    · have hstep : phase1Step fc vertices s₂ pgon
          = { s₂ with degen := s₂.degen + 1 } := by
        rw [phase1Step, if_pos (by omega)]
      rw [List.filter_cons, if_neg (by simpa using hlen)]
      simp only [List.foldl_cons]
      rw [hstep]
      apply ih
      · exact hr
      · exact hp

/-- C6: `tessellate_faces` drops every input face with fewer than 3 vertices —
the output mesh is the same as for the input with those faces removed — counts
them, and the aggregate warning (the source logs it iff the returned counter
is positive) fires exactly when at least one such face was present. -/
theorem claim_C6 (fc : V → V)
    (tess : List V → List (List Nat) → Option (List (Nat × Nat × Nat)))
    (ps : PolySet V) :
    (tessellate_faces fc tess ps).2
        = (ps.indices.filter (fun p => decide (p.length < 3))).length
    ∧ (0 < (tessellate_faces fc tess ps).2 ↔ ∃ p ∈ ps.indices, p.length < 3)
    ∧ (tessellate_faces fc tess ps).1
        = (tessellate_faces fc tess
            { ps with indices :=
                ps.indices.filter (fun p => decide (3 ≤ p.length)) }).1 := by
  obtain ⟨-, -, -, -, hdeg, -, -⟩ :=
    phase1_spec fc ps.vertices ps.indices ⟨⟨[]⟩, [], 0⟩ (by simp) (by simp)
  have hcount : (tessellate_faces fc tess ps).2
      = (ps.indices.filter (fun p => decide (p.length < 3))).length := by
    rw [tessellate_eq]
    simpa using hdeg
  refine ⟨hcount, ?_, ?_⟩
  · rw [hcount]
    rw [List.length_pos]
    constructor
    · intro h
      rcases List.exists_mem_of_ne_nil _ h with ⟨p, hp⟩
      have := List.of_mem_filter hp
      exact ⟨p, List.mem_of_mem_filter hp, by simpa using this⟩
    · rintro ⟨p, hp, hlen⟩
      intro hnil
      have : p ∈ ps.indices.filter (fun p => decide (p.length < 3)) :=
        List.mem_filter.mpr ⟨hp, by simpa using hlen⟩
      rw [hnil] at this
      simp at this
  · rw [tessellate_eq, tessellate_eq]
    obtain ⟨hrq, hpq⟩ := phase1_filter fc ps.vertices ps.indices
      ⟨⟨[]⟩, [], 0⟩ ⟨⟨[]⟩, [], 0⟩ rfl rfl
    simp only []
    rw [hrq, hpq]

/-- C10: the output vertex array of `tessellate_faces` is the full
deduplicated table built from every face of size at least 3: every narrowed
position referenced by such a face appears in the output vertex array, even if
the face itself was culled or its triangulation failed. -/
theorem claim_C10 (fc : V → V)
    (tess : List V → List (List Nat) → Option (List (Nat × Nat × Nat)))
    (ps : PolySet V) (pgon : List Nat) (ind : Nat)
    (hmem : pgon ∈ ps.indices) (hlen : 3 ≤ pgon.length) (hind : ind ∈ pgon) :
    fc (ps.vertices.getD ind default) ∈ (tessellate_faces fc tess ps).1.vertices := by
  rw [tessellate_eq]
  obtain ⟨-, -, -, -, -, hmemT, -⟩ :=
    phase1_spec fc ps.vertices ps.indices ⟨⟨[]⟩, [], 0⟩ (by simp) (by simp)
  exact hmemT pgon hmem hlen ind hind

theorem claim_C10_witness :
    (10 : Nat) ∈ (tessellate_faces (V := Nat) id (fun _ _ => none)
        ⟨[10, 20], [[0, 0, 1, 1]], 3, none, 1⟩).1.vertices
    ∧ (tessellate_faces (V := Nat) id (fun _ _ => none)
        ⟨[10, 20], [[0, 0, 1, 1]], 3, none, 1⟩).1.indices = []
    ∧ (tessellate_faces (V := Nat) id (fun _ _ => none)
        ⟨[10, 20], [[0, 0, 1, 1]], 3, none, 1⟩).1.vertices = [10, 20] := by
  refine ⟨?_, by decide, by decide⟩
  exact claim_C10 (V := Nat) id (fun _ _ => none)
    ⟨[10, 20], [[0, 0, 1, 1]], 3, none, 1⟩ [0, 0, 1, 1] 0
    (by decide) (by decide) (by decide)

/-! ### Toward tessellation idempotence (C2) -/

theorem list3_eq (f : List Nat) (h : f.length = 3) :
    [f.getD 0 0, f.getD 1 0, f.getD 2 0] = f := by
  match f, h with
  | [a, b, c], _ => rfl

theorem posOf_ne {t : List V} (hnd : t.Nodup) {i j : Nat} (hi : i < t.length)
    (hj : j < t.length) (hij : i ≠ j) : posOf t i ≠ posOf t j :=
  fun h => hij (nodup_getD_inj hnd default hi hj h)

theorem specKeptFaces_props (fc : V → V) (vertices : List V)
    (faces : List (List Nat)) :
    ∀ g ∈ specKeptFaces fc vertices faces,
      3 ≤ g.length ∧ List.Chain' (fun x y => x ≠ y) g
        ∧ g.head? ≠ g.getLast? := by
  intro g hg
  unfold specKeptFaces at hg
  have hlen : 3 ≤ g.length := by
    have := List.of_mem_filter hg
    simpa using this
  have hg2 := List.mem_of_mem_filter hg
  rcases List.mem_map.mp hg2 with ⟨pgon, -, rfl⟩
  have hchain : List.Chain' (fun x y => x ≠ y) (specFace fc vertices pgon) :=
    popClosing_chain (specCollapse_chain _)
  exact ⟨hlen, hchain,
    popClosing_head_ne_last (specCollapse_chain _)
      (by have h2 := hlen; unfold specFace at h2; omega)⟩

/-- Every face of the mesh produced by `tessellate_faces` is a triangle whose
indices are in range and whose three vertex positions are pairwise distinct
(under the stated guarantees for the external triangulator's output). -/
theorem tessellate_out_props (fc : V → V)
    (tess : List V → List (List Nat) → Option (List (Nat × Nat × Nat)))
    (htess : ∀ vs f ts, tess vs [f] = some ts → ∀ t ∈ ts,
      t.1 ≠ t.2.1 ∧ t.2.1 ≠ t.2.2 ∧ t.1 ≠ t.2.2
      ∧ t.1 < vs.length ∧ t.2.1 < vs.length ∧ t.2.2 < vs.length)
    (ps : PolySet V) :
    (tessellate_faces fc tess ps).1.vertices.Nodup
    ∧ (∀ w ∈ (tessellate_faces fc tess ps).1.vertices, ∃ u, w = fc u)
    ∧ (∀ f ∈ (tessellate_faces fc tess ps).1.indices,
        f.length = 3
        ∧ (∀ i ∈ f, i < (tessellate_faces fc tess ps).1.vertices.length)
        ∧ List.Chain' (fun x y => x ≠ y)
            (f.map (posOf (tessellate_faces fc tess ps).1.vertices))
        ∧ (f.map (posOf (tessellate_faces fc tess ps).1.vertices)).head?
            ≠ (f.map (posOf (tessellate_faces fc tess ps).1.vertices)).getLast?) := by
  obtain ⟨hext, hnd, hbound, hmap, hdeg, hmem, hprov⟩ :=
    phase1_spec fc ps.vertices ps.indices ⟨⟨[]⟩, [], 0⟩ (by simp) (by simp)
  rw [tessellate_eq]
  simp only []
  refine ⟨hnd, ?_, ?_⟩
  · intro w hw
    rcases hprov w hw with hw1 | hw1
    · simp at hw1
    · exact hw1
  · intro f hf
    rcases List.mem_flatten.mp hf with ⟨ts, hts, hfts⟩
    rcases List.mem_map.mp hts with ⟨poly, hpoly, rfl⟩
    have hpolyb := hbound poly hpoly
    have hmapped : poly.map
        (posOf (ps.indices.foldl (phase1Step fc ps.vertices) ⟨⟨[]⟩, [], 0⟩).r.table)
        ∈ specKeptFaces fc ps.vertices ps.indices := by
      have := List.mem_map_of_mem
        (List.map (posOf
          (ps.indices.foldl (phase1Step fc ps.vertices) ⟨⟨[]⟩, [], 0⟩).r.table))
        hpoly
      rw [hmap] at this
      simpa using this
    obtain ⟨hg3, hgch, hghl⟩ := specKeptFaces_props fc ps.vertices ps.indices _ hmapped
    have hpolylen : 3 ≤ poly.length := by
      rw [← List.length_map poly
        (posOf (ps.indices.foldl (phase1Step fc ps.vertices) ⟨⟨[]⟩, [], 0⟩).r.table)]
      exact hg3
    unfold faceTrisIdx at hfts
    by_cases h3 : poly.length = 3
    · rw [if_pos h3] at hfts
      rw [List.mem_singleton] at hfts
      subst hfts
      rw [list3_eq poly h3]
      exact ⟨h3, hpolyb, hgch, hghl⟩
    · rw [if_neg h3] at hfts
      cases hts2 : tess
          (ps.indices.foldl (phase1Step fc ps.vertices) ⟨⟨[]⟩, [], 0⟩).r.table
          [poly] with
      | none => rw [hts2] at hfts; simp at hfts
      | some ts2 =>
        rw [hts2] at hfts
        rcases List.mem_map.mp hfts with ⟨t, ht, rfl⟩
        obtain ⟨d1, d2, d3, b1, b2, b3⟩ := htess _ _ _ hts2 t ht
        refine ⟨rfl, ?_, ?_, ?_⟩
        · intro i hi
          simp only [List.mem_cons, List.mem_singleton] at hi
          rcases hi with rfl | rfl | rfl | hi
          · exact b1
          · exact b2
          · exact b3
          · simp at hi
        · simp only [List.map_cons, List.map_nil, List.chain'_cons,
            List.chain'_singleton, and_true]
          exact ⟨posOf_ne hnd b1 b2 d1, posOf_ne hnd b2 b3 d2⟩
        · simp only [List.map_cons, List.map_nil]
          simp only [List.head?_cons, List.getLast?_cons_cons,
            List.getLast?_singleton, ne_eq, Option.some.injEq]
          exact posOf_ne hnd b1 b3 d3

theorem flatten_singletons {A : Type} (l : List A) :
    (l.map (fun t => [t])).flatten = l := by
  induction l with
  | nil => rfl
  | cons a l ih => simp [ih]

/-- Feeding an already-tessellated face list through phase 1 keeps every face
unchanged (as positions): the collapse and the closing-vertex pop are both
no-ops on a triangle with pairwise-distinct vertex positions. -/
theorem pass2_kept (fc : V → V) (T1 : List V) (hfc : ∀ v, fc (fc v) = fc v)
    (hfix : ∀ w ∈ T1, ∃ u, w = fc u) (faces2 : List (List Nat))
    (hprops : ∀ f ∈ faces2, f.length = 3 ∧ (∀ i ∈ f, i < T1.length)
        ∧ List.Chain' (fun x y => x ≠ y) (f.map (posOf T1))
        ∧ (f.map (posOf T1)).head? ≠ (f.map (posOf T1)).getLast?) :
    specKeptFaces fc T1 faces2 = faces2.map (List.map (posOf T1)) := by
  induction faces2 with
  | nil => simp [specKeptFaces]
  | cons t rest ih =>
    obtain ⟨h3, hb, hch, hhl⟩ := hprops t (List.mem_cons_self _ _)
    have hrest := ih (fun f hf => hprops f (List.mem_cons_of_mem _ hf))
    rw [specKeptFaces_cons, hrest]
    have hpos : facePos fc T1 t = t.map (posOf T1) := by
      unfold facePos
      apply List.map_congr_left
      intro i hi
      have hw : posOf T1 i ∈ T1 := getD_mem default (hb i hi)
      rcases hfix _ hw with ⟨u, hu⟩
      show fc (T1.getD i default) = posOf T1 i
      rw [show T1.getD i default = posOf T1 i from rfl, hu, hfc]
    have hsf : specFace fc T1 t = t.map (posOf T1) := by
      unfold specFace
      rw [hpos, specCollapse_eq_self hch, popClosing, if_neg hhl]
    rw [if_pos (by omega), hsf, if_pos (by rw [List.length_map]; omega)]
    simp

/-- C2: tessellation is idempotent — applying `tessellate_faces` to its own
output reproduces the same triangle list (as vertex positions), and every face
of a tessellated mesh already has exactly 3 indices.  The hypotheses state that
the float narrowing is idempotent and that the external triangulator returns
genuine triangles: pairwise-distinct, in-range indices. -/
theorem claim_C2 (fc : V → V)
    (tess : List V → List (List Nat) → Option (List (Nat × Nat × Nat)))
    (hfc : ∀ v, fc (fc v) = fc v)
    (htess : ∀ vs f ts, tess vs [f] = some ts → ∀ t ∈ ts,
      t.1 ≠ t.2.1 ∧ t.2.1 ≠ t.2.2 ∧ t.1 ≠ t.2.2
      ∧ t.1 < vs.length ∧ t.2.1 < vs.length ∧ t.2.2 < vs.length)
    (ps : PolySet V) :
    posFaces (tessellate_faces fc tess (tessellate_faces fc tess ps).1).1
      = posFaces (tessellate_faces fc tess ps).1
    ∧ (∀ f ∈ (tessellate_faces fc tess ps).1.indices, f.length = 3) := by
  obtain ⟨hnd1, hprov1, hface1⟩ := tessellate_out_props fc tess htess ps
  refine ⟨?_, fun f hf => (hface1 f hf).1⟩
  obtain ⟨hext2, hnd2, hbound2, hmap2, hdeg2, hmem2, hprov2⟩ :=
    phase1_spec fc (tessellate_faces fc tess ps).1.vertices
      (tessellate_faces fc tess ps).1.indices ⟨⟨[]⟩, [], 0⟩ (by simp) (by simp)
  have hkept : specKeptFaces fc (tessellate_faces fc tess ps).1.vertices
      (tessellate_faces fc tess ps).1.indices
      = (tessellate_faces fc tess ps).1.indices.map
          (List.map (posOf (tessellate_faces fc tess ps).1.vertices)) :=
    pass2_kept fc _ hfc hprov1 _ hface1
  rw [hkept] at hmap2
  simp only [List.map_nil, List.nil_append] at hmap2
  -- every kept face of the second pass is a triangle
  have hq3 : ∀ q ∈ ((tessellate_faces fc tess ps).1.indices.foldl
      (phase1Step fc (tessellate_faces fc tess ps).1.vertices)
      ⟨⟨[]⟩, [], 0⟩).polys, q.length = 3 := by
    intro q hq
    have hqm := List.mem_map_of_mem
      (List.map (posOf ((tessellate_faces fc tess ps).1.indices.foldl
        (phase1Step fc (tessellate_faces fc tess ps).1.vertices)
        ⟨⟨[]⟩, [], 0⟩).r.table)) hq
    rw [hmap2] at hqm
    rcases List.mem_map.mp hqm with ⟨f, hf, hfq⟩
    have hlen := congrArg List.length hfq
    simp only [List.length_map] at hlen
    rw [← hlen, (hface1 f hf).1]
  -- so the second phase 2 emits each kept face verbatim
  rw [tessellate_eq fc tess (tessellate_faces fc tess ps).1]
  unfold posFaces
  simp only []
  have hmapsing : (((tessellate_faces fc tess ps).1.indices.foldl
        (phase1Step fc (tessellate_faces fc tess ps).1.vertices)
        ⟨⟨[]⟩, [], 0⟩).polys).map
      (faceTrisIdx tess ((tessellate_faces fc tess ps).1.indices.foldl
        (phase1Step fc (tessellate_faces fc tess ps).1.vertices)
        ⟨⟨[]⟩, [], 0⟩).r.table)
      = (((tessellate_faces fc tess ps).1.indices.foldl
        (phase1Step fc (tessellate_faces fc tess ps).1.vertices)
        ⟨⟨[]⟩, [], 0⟩).polys).map (fun q => [q]) := by
    apply List.map_congr_left
    intro q hq
    rw [faceTrisIdx, if_pos (hq3 q hq), list3_eq q (hq3 q hq)]
  rw [hmapsing, flatten_singletons]
  exact hmap2

theorem claim_C2_witness :
    posFaces (tessellate_faces (V := Nat) id
        (fun vs _ => if 4 ≤ vs.length then some [(0, 1, 2), (0, 2, 3)] else none)
        (tessellate_faces (V := Nat) id
          (fun vs _ => if 4 ≤ vs.length then some [(0, 1, 2), (0, 2, 3)] else none)
          ⟨[10, 20, 30, 40], [[0, 1, 2, 3]], 3, none, 1⟩).1).1
      = posFaces (tessellate_faces (V := Nat) id
          (fun vs _ => if 4 ≤ vs.length then some [(0, 1, 2), (0, 2, 3)] else none)
          ⟨[10, 20, 30, 40], [[0, 1, 2, 3]], 3, none, 1⟩).1
    ∧ posFaces (tessellate_faces (V := Nat) id
          (fun vs _ => if 4 ≤ vs.length then some [(0, 1, 2), (0, 2, 3)] else none)
          ⟨[10, 20, 30, 40], [[0, 1, 2, 3]], 3, none, 1⟩).1
        = [[10, 20, 30], [10, 30, 40]] := by
  refine ⟨(claim_C2 id
    (fun vs _ => if 4 ≤ vs.length then some [(0, 1, 2), (0, 2, 3)] else none)
    (fun _ => rfl) ?_ ⟨[10, 20, 30, 40], [[0, 1, 2, 3]], 3, none, 1⟩).1, by decide⟩
  intro vs f ts h
  simp only [] at h
  by_cases h4 : 4 ≤ vs.length
  · rw [if_pos h4] at h
    have hts : ts = [(0, 1, 2), (0, 2, 3)] := by
      injection h with h'
      exact h'.symm
    subst hts
    intro t ht
    simp only [List.mem_cons, List.mem_singleton] at ht
    rcases ht with rfl | rfl | ht
    · exact ⟨by decide, by decide, by decide, by omega,
        by show 1 < vs.length; omega, by show 2 < vs.length; omega⟩
    · exact ⟨by decide, by decide, by decide, by omega,
        by show 2 < vs.length; omega, by show 3 < vs.length; omega⟩
    · simp at ht
  · rw [if_neg h4] at h
    exact absurd h (by simp)

/-! ### Toward local triangulation failure (C7) -/

/-- Position-level view of one kept face's output triangles: a triangle is
emitted verbatim, a bigger face is handed to the position-level triangulator
oracle, whose failure contributes no triangles. -/
def perFacePosTris (tessPos : List V → Option (List (List V))) (g : List V) :
    List (List V) :=
  if g.length = 3 then [g] else (tessPos g).getD []

/-- Fully canonical (state-free) position-level output of `tessellate_faces`. -/
def canonTris (fc : V → V) (tessPos : List V → Option (List (List V)))
    (vertices : List V) (faces : List (List Nat)) : List (List V) :=
  ((specKeptFaces fc vertices faces).map (perFacePosTris tessPos)).flatten

theorem specFace_length_le (fc : V → V) (vertices : List V) (pgon : List Nat) :
    (specFace fc vertices pgon).length ≤ pgon.length := by
  unfold specFace
  calc (popClosing (specCollapse (facePos fc vertices pgon))).length
      ≤ (specCollapse (facePos fc vertices pgon)).length :=
        popClosing_length_le _
    _ ≤ (facePos fc vertices pgon).length := specCollapse_length_le _
    _ = pgon.length := by simp [facePos]

theorem specKeptFaces_append (fc : V → V) (vertices : List V)
    (l1 l2 : List (List Nat)) :
    specKeptFaces fc vertices (l1 ++ l2)
      = specKeptFaces fc vertices l1 ++ specKeptFaces fc vertices l2 := by
  unfold specKeptFaces
  rw [List.filter_append, List.map_append, List.filter_append]

/-- Master characterization: when the external triangulator is determined by
the vertex positions of the query (oracle `tessPos`), the output triangle list
of `tessellate_faces`, read as positions, is a state-free function of the
input faces' position sequences. -/
theorem tessellate_posFaces (fc : V → V)
    (tess : List V → List (List Nat) → Option (List (Nat × Nat × Nat)))
    (tessPos : List V → Option (List (List V)))
    (hInv : ∀ vs f, Option.map
        (fun ts => ts.map (fun t => [posOf vs t.1, posOf vs t.2.1, posOf vs t.2.2]))
        (tess vs [f]) = tessPos (f.map (posOf vs)))
    (ps : PolySet V) :
    posFaces (tessellate_faces fc tess ps).1
      = canonTris fc tessPos ps.vertices ps.indices := by
  obtain ⟨hext, hnd, hbound, hmap, hdeg, hmem, hprov⟩ :=
    phase1_spec fc ps.vertices ps.indices ⟨⟨[]⟩, [], 0⟩ (by simp) (by simp)
  simp only [List.map_nil, List.nil_append] at hmap
  rw [tessellate_eq]
  unfold posFaces canonTris
  simp only []
  rw [← hmap, List.map_flatten, List.map_map, List.map_map]
  congr 1
  apply List.map_congr_left
  intro q hq
  show (faceTrisIdx tess _ q).map
      (List.map (posOf (ps.indices.foldl (phase1Step fc ps.vertices)
        ⟨⟨[]⟩, [], 0⟩).r.table))
    = perFacePosTris tessPos (q.map (posOf (ps.indices.foldl
        (phase1Step fc ps.vertices) ⟨⟨[]⟩, [], 0⟩).r.table))
  unfold faceTrisIdx perFacePosTris
  by_cases h3 : q.length = 3
  · rw [if_pos h3, if_pos (by rw [List.length_map]; exact h3)]
    rw [← list3_eq q h3]
    simp
  · rw [if_neg h3, if_neg (by rw [List.length_map]; exact h3)]
    have hq2 := hInv (ps.indices.foldl (phase1Step fc ps.vertices)
      ⟨⟨[]⟩, [], 0⟩).r.table q
    cases hts : tess (ps.indices.foldl (phase1Step fc ps.vertices)
        ⟨⟨[]⟩, [], 0⟩).r.table [q] with
    | none =>
      rw [hts] at hq2
      simp only [Option.map_none'] at hq2
      rw [← hq2]
      simp
    | some ts =>
      rw [hts] at hq2
      simp only [Option.map_some'] at hq2
      rw [← hq2]
      simp only [Option.getD_some, List.map_map]
      apply List.map_congr_left
      intro t ht
      simp

/-- C7: if the external triangulator fails on one kept face with 4 or more
indices, `tessellate_faces` omits exactly that face's output triangles: the
output triangle list (as positions) is the same as for the input with that
face absent.  The triangulator is assumed position-determined (oracle
`tessPos`); failure on the face is stated via the oracle. -/
theorem claim_C7 (fc : V → V)
    (tess : List V → List (List Nat) → Option (List (Nat × Nat × Nat)))
    (tessPos : List V → Option (List (List V)))
    (hInv : ∀ vs f, Option.map
        (fun ts => ts.map (fun t => [posOf vs t.1, posOf vs t.2.1, posOf vs t.2.2]))
        (tess vs [f]) = tessPos (f.map (posOf vs)))
    (ps : PolySet V) (k : Nat)
    (hk : k < ps.indices.length)
    (hlen : 4 ≤ (specFace fc ps.vertices (ps.indices.getD k [])).length)
    (hfail : tessPos (specFace fc ps.vertices (ps.indices.getD k [])) = none) :
    posFaces (tessellate_faces fc tess ps).1
      = posFaces (tessellate_faces fc tess
          { ps with indices := ps.indices.eraseIdx k }).1 := by
  rw [tessellate_posFaces fc tess tessPos hInv ps,
    tessellate_posFaces fc tess tessPos hInv
      { ps with indices := ps.indices.eraseIdx k }]
  simp only []
  have hdecomp : ps.indices
      = ps.indices.take k ++ ps.indices.getD k [] :: ps.indices.drop (k + 1) := by
    conv_lhs => rw [← List.take_append_drop k ps.indices]
    congr 1
    rw [List.drop_eq_getElem_cons hk]
    congr 1
    exact (List.getD_eq_getElem ps.indices [] hk).symm
  have herase : ps.indices.eraseIdx k
      = ps.indices.take k ++ ps.indices.drop (k + 1) :=
    List.eraseIdx_eq_take_drop_succ ps.indices k
  rw [herase]
  conv_lhs => rw [hdecomp]
  unfold canonTris
  rw [specKeptFaces_append, specKeptFaces_append]
  rw [show (ps.indices.getD k [] :: ps.indices.drop (k + 1))
      = [ps.indices.getD k []] ++ ps.indices.drop (k + 1) from rfl]
  rw [specKeptFaces_append]
  simp only [List.map_append, List.flatten_append]
  congr 1
  have hkeptk : specKeptFaces fc ps.vertices [ps.indices.getD k []]
      = [specFace fc ps.vertices (ps.indices.getD k [])] := by
    have hplen : 3 ≤ (ps.indices.getD k []).length := by
      have := specFace_length_le fc ps.vertices (ps.indices.getD k [])
      omega
    rw [show ([ps.indices.getD k []] : List (List Nat))
        = ps.indices.getD k [] :: [] from rfl]
    rw [specKeptFaces_cons]
    rw [if_pos hplen, if_pos (by omega)]
    simp [specKeptFaces]
  rw [hkeptk]
  simp only [List.map_cons, List.map_nil, List.flatten_cons, List.flatten_nil]
  unfold perFacePosTris
  rw [if_neg (by omega), hfail]
  simp

theorem claim_C7_witness :
    posFaces (tessellate_faces (V := Nat) id (fun _ _ => none)
        ⟨[10, 20, 30, 40], [[0, 1, 2], [0, 1, 2, 3]], 3, none, 1⟩).1
      = posFaces (tessellate_faces (V := Nat) id (fun _ _ => none)
          { (⟨[10, 20, 30, 40], [[0, 1, 2], [0, 1, 2, 3]], 3, none, 1⟩
              : PolySet Nat) with
            indices := ([[0, 1, 2], [0, 1, 2, 3]] : List (List Nat)).eraseIdx 1 }).1
    ∧ posFaces (tessellate_faces (V := Nat) id (fun _ _ => none)
        ⟨[10, 20, 30, 40], [[0, 1, 2], [0, 1, 2, 3]], 3, none, 1⟩).1
      = [[10, 20, 30]] := by
  refine ⟨claim_C7 (V := Nat) id (fun _ _ => none) (fun _ => none)
    (fun _ _ => rfl)
    ⟨[10, 20, 30, 40], [[0, 1, 2], [0, 1, 2, 3]], 3, none, 1⟩ 1
    (by decide) (by decide) rfl, by decide⟩

/-! ## The ManifoldGeometry adapter (part_000)

Vertex positions are rational triples (`Vector3d`); the manifold boolean
kernel, CGAL and `GeometryUtils` are opaque type/function parameters bundled
in `KernelOps`.  `shared_ptr<manifold::Manifold>` is modelled by an
append-only heap of kernel solids plus an address held by each adapter:
`make_shared` allocates a fresh cell, copying an adapter copies the address. -/

/-- Rational stand-in for `Vector3d`. -/
def Vec3 : Type := ℚ × ℚ × ℚ

instance : DecidableEq Vec3 := inferInstanceAs (DecidableEq (ℚ × ℚ × ℚ))

instance : Inhabited Vec3 := inferInstanceAs (Inhabited (ℚ × ℚ × ℚ))

/-- Embeds `manifold::MeshGL` as consumed by `toPolySet` (lines 97-114):
interleaved vertex property buffer with `numProp` channels per vertex, flat
triangle index buffer. -/
structure MeshGL where
  numProp : Nat
  vertProperties : List ℚ
  triVerts : List Nat

/-- Embeds the vertex loop of part_000 lines 103-107: read 3 channels at `i`,
advance by `numProp`, while `i < vertProperties.size()`.  The fuel argument
bounds the iteration count (with `numProp ≥ 1` one pass consumes at least one
element, so `vertProperties.length` steps suffice; `numProp = 0` would loop
forever in the source and is cut off here, unreachable since the kernel
guarantees `numProp ≥ 3`). -/
def vertLoopAux (numProp : Nat) : Nat → List ℚ → List Vec3
  | _, [] => []
  | 0, _ :: _ => []
  | fuel + 1, x :: xs =>
    ((x :: xs).getD 0 0, (x :: xs).getD 1 0, (x :: xs).getD 2 0)
      :: vertLoopAux numProp fuel ((x :: xs).drop numProp)

def vertLoop (numProp : Nat) (props : List ℚ) : List Vec3 :=
  vertLoopAux numProp props.length props

/-- Embeds the triangle loop of part_000 lines 108-112: read 3 indices at `i`,
advance by 3 (a partial final chunk would read out of bounds in the source;
modelled as default 0, unreachable since the buffer holds whole triangles). -/
def triLoop : List Nat → List (List Nat)
  | a :: b :: c :: rest => [a, b, c] :: triLoop rest
  | [a, b] => [[a, b, 0]]
  | [a] => [[a, 0, 0]]
  | [] => []

/-- Embeds `ManifoldGeometry::toPolySet` (part_000 lines 97-114): a dimension-3
`PolySet` whose vertices take the first 3 property channels per record and
whose faces are the kernel's triangles.  (`PolySet` constructor defaults are
modelled from the spec.) -/
def toPolySet (m : MeshGL) : PolySet Vec3 :=
  { vertices := vertLoop m.numProp m.vertProperties,
    indices := triLoop m.triVerts,
    dim := 3, convexVal := none, convexity := 1 }

/-- Specification-side view of the triangle buffer: consecutive index
triples. -/
def specTriples : List Nat → List (List Nat)
  | a :: b :: c :: rest => [a, b, c] :: specTriples rest
  | _ => []

theorem triLoop_eq_specTriples {tv : List Nat} (h : 3 ∣ tv.length) :
    triLoop tv = specTriples tv := by
  induction tv using triLoop.induct with
  | case1 a b c rest ih =>
    rw [triLoop, specTriples]
    simp only [List.length_cons] at h
    have h3 : 3 ∣ rest.length := by omega
    rw [ih h3]
  | case2 a b => simp only [List.length_cons, List.length_nil] at h; omega
  | case3 a => simp only [List.length_cons, List.length_nil] at h; omega
  | case4 => rfl

theorem triLoop_length_3 (tv : List Nat) :
    ∀ f ∈ triLoop tv, f.length = 3 := by
  induction tv using triLoop.induct with
  | case1 a b c rest ih =>
    intro f hf
    rw [triLoop] at hf
    rcases List.mem_cons.mp hf with rfl | hf
    · rfl
    · exact ih f hf
  | case2 a b => intro f hf; rw [triLoop] at hf; simp at hf; subst hf; rfl
  | case3 a => intro f hf; rw [triLoop] at hf; simp at hf; subst hf; rfl
  | case4 => intro f hf; simp [triLoop] at hf

theorem vertLoopAux_getD (numProp : Nat) (hnp : 1 ≤ numProp) :
    ∀ (k : Nat) (fuel : Nat) (props : List ℚ),
      props.length ≤ fuel → k * numProp < props.length →
      (vertLoopAux numProp fuel props).getD k default
        = (props.getD (k * numProp) 0, props.getD (k * numProp + 1) 0,
           props.getD (k * numProp + 2) 0) := by
  intro k
  induction k with
  | zero =>
    intro fuel props hfuel hk
    match fuel, props with
    | _, [] => simp at hk
    | 0, x :: xs => simp at hfuel
    | fuel + 1, x :: xs =>
      rw [vertLoopAux]
      simp
  | succ k ih =>
    intro fuel props hfuel hk
    match fuel, props with
    | _, [] => simp at hk
    | 0, x :: xs => simp at hfuel
    | fuel + 1, x :: xs =>
      rw [vertLoopAux]
      rw [List.getD_cons_succ]
      have hlen : ((x :: xs).drop numProp).length ≤ fuel := by
        rw [List.length_drop]
        simp only [List.length_cons]
        simp only [List.length_cons] at hfuel
        omega
      have hk2 : k * numProp < ((x :: xs).drop numProp).length := by
        rw [List.length_drop]
        have : (k + 1) * numProp = k * numProp + numProp := by ring
        rw [this] at hk
        omega
      rw [ih fuel ((x :: xs).drop numProp) hlen hk2]
      have hgd : ∀ (j : Nat), ((x :: xs).drop numProp).getD j 0
          = (x :: xs).getD (numProp + j) 0 := by
        intro j
        simp only [List.getD_eq_getElem?_getD]
        rw [List.getElem?_drop]
      have harith : (k + 1) * numProp = numProp + k * numProp := by ring
      rw [hgd, hgd, hgd, harith]
      congr 2

/-- C8: `toPolySet` flattens the solid so that every output face is a triangle
of exactly 3 indices, the faces are the consecutive triples of the kernel's
triangle index buffer, and each output vertex is exactly the first 3 property
channels of the corresponding interleaved record of stride `numProp`; further
channels are discarded. -/
theorem claim_C8 (m : MeshGL) (hnp : 3 ≤ m.numProp) :
    (∀ f ∈ (toPolySet m).indices, f.length = 3)
    ∧ (3 ∣ m.triVerts.length → (toPolySet m).indices = specTriples m.triVerts)
    ∧ (∀ k, k * m.numProp < m.vertProperties.length →
        (toPolySet m).vertices.getD k default
          = (m.vertProperties.getD (k * m.numProp) 0,
             m.vertProperties.getD (k * m.numProp + 1) 0,
             m.vertProperties.getD (k * m.numProp + 2) 0)) := by
  refine ⟨fun f hf => triLoop_length_3 m.triVerts f hf,
    fun h => triLoop_eq_specTriples h, ?_⟩
  intro k hk
  show (vertLoop m.numProp m.vertProperties).getD k default = _
  unfold vertLoop
  exact vertLoopAux_getD m.numProp (by omega) k m.vertProperties.length
    m.vertProperties (le_refl _) hk

theorem claim_C8_witness :
    (3 ≤ 4
      ∧ (toPolySet ⟨4, [1, 2, 3, 9, 5, 6, 7, 8], [0, 1, 1]⟩).vertices
          = [((1 : ℚ), (2 : ℚ), (3 : ℚ)), ((5 : ℚ), (6 : ℚ), (7 : ℚ))]
      ∧ (toPolySet ⟨4, [1, 2, 3, 9, 5, 6, 7, 8], [0, 1, 1]⟩).indices = [[0, 1, 1]])
    ∧ (∀ f ∈ (toPolySet ⟨4, [1, 2, 3, 9, 5, 6, 7, 8], [0, 1, 1]⟩).indices,
        f.length = 3) := by
  refine ⟨⟨by omega, by decide, by decide⟩, ?_⟩
  exact (claim_C8 ⟨4, [1, 2, 3, 9, 5, 6, 7, 8], [0, 1, 1]⟩ (by decide)).1

/-! ### External collaborators as parameters -/

/-- Embeds `manifold::OpType`. -/
inductive OpType where
  | Add
  | Intersect
  | Subtract

/-- The relevant 3 rows and 4 columns of the caller's `Transform3d`
(row-major access `mat(r, c)` in the source). -/
def Transform3d : Type := Fin 3 → Fin 4 → ℚ

/-- The kernel's column-major `glm::mat4x3`. -/
def Mat4x3 : Type := Fin 4 → Fin 3 → ℚ

/-- Embeds the matrix construction of `ManifoldGeometry::transform` (part_000
lines 200-206): the 4x3 matrix is filled column by column with the columns of
the source transform, i.e. entry (column c, row r) is `mat(r, c)`. -/
def glMatOf (mat : Transform3d) : Mat4x3 := fun c r => mat r c

/-- Min/max corner pair standing in for `BoundingBox` / `manifold::Box`. -/
def BBox : Type := Vec3 × Vec3

/-- Per-axis auto-size flags of `resize`. -/
def Auto3 : Type := Bool × Bool × Bool

/-- Embeds the body of `toPolyhedron`'s mesh (`manifold::Mesh`): vertex
positions plus triangles. -/
structure MeshRep where
  vertPos : List Vec3
  triVerts : List (Nat × Nat × Nat)

/-- The incremental-builder protocol of `CGALPolyhedronBuilderFromManifold`
(part_000 lines 128-144). -/
inductive BuilderStep where
  | beginSurface (nv nf : Nat)
  | addVertex (v : Vec3)
  | beginFacet
  | addVertexToFacet (i : Nat)
  | endFacet
  | endSurface

/-- The opaque external collaborators of the adapter: the manifold boolean
kernel (type `M`), CGAL's Nef polyhedra (`N`), `CGALHybridPolyhedron` (`H`),
`CGAL::Polyhedron_3` (`P`) with its assertion-exception type (`E`), and the
helper functions of `CGALUtils` / `ManifoldUtils` / `GeometryUtils` that are
not part of the excerpt. -/
structure KernelOps (M N H P E : Type) where
  emptyM : M
  boolOpK : M → M → OpType → M
  transformK : M → Mat4x3 → M
  getMeshGL : M → MeshGL
  getMesh : M → MeshRep
  kBBox : M → BBox
  getResizeTransform : BBox → Vec3 → Auto3 → Transform3d
  nIsEmpty : N → Bool
  nToPolySet : N → Option (PolySet Vec3)
  nConvexity : N → Int
  hToPolySet : H → Option (PolySet Vec3)
  createNef : PolySet Vec3 → N
  nefMinkowski : N → N → N
  trustedPolySetToManifold : PolySet Vec3 → M
  defaultP : P
  delegateRun : List BuilderStep → Except E P

variable {M N H P E O : Type} [Inhabited M]

/-- The solid produced for `this` by `toPolySet` (part_000 line 97:
`getManifold().GetMeshGL()` then the flattening loops). -/
def toPolySetM (K : KernelOps M N H P E) (m : M) : PolySet Vec3 :=
  toPolySet (K.getMeshGL m)

/-- The polymorphic `Geometry` values the dispatcher distinguishes with
`dynamic_pointer_cast`: a plain `PolySet`, a `CGAL_Nef_polyhedron`, a
`CGALHybridPolyhedron`, a `ManifoldGeometry` (carrying its kernel solid), or
any other `Geometry` subclass (`O`). -/
inductive Geometry (N H M O : Type) where
  | polySet (ps : PolySet Vec3)
  | nef (n : N)
  | hybrid (h : H)
  | manifoldGeo (m : M)
  | other (o : O)

/-- Canonical empty mesh `PolySet(3)` (constructor defaults modelled from the
spec). -/
def emptyPolySet3 : PolySet Vec3 := ⟨[], [], 3, none, 1⟩

/-- Embeds `PolySetUtils::getGeometryAsPolySet` (PolySetUtils.cc lines
139-165).  The Boolean records whether an error was logged (`LOG(Error,
"Nef->PolySet failed.")`); `none` models the `nullptr` fallthrough. -/
def getGeometryAsPolySet (K : KernelOps M N H P E) :
    Geometry N H M O → Option (PolySet Vec3) × Bool
  | .polySet ps => (some ps, false)
  | .nef n =>
    if K.nIsEmpty n = false then
      match K.nToPolySet n with
      | some ps => (some (ps.setConvexity (K.nConvexity n)), false)
      | none => (some emptyPolySet3, true)
    else (some emptyPolySet3, false)
  | .hybrid h => (K.hToPolySet h, false)
  | .manifoldGeo m => (some (toPolySetM K m), false)
  | .other _ => (none, false)

/-- C9: the dispatcher resolves variants in order — a plain mesh is returned
as-is; an empty Nef solid yields the canonical empty 3-dimensional mesh; a
failed Nef-to-mesh conversion logs an error and still yields the canonical
empty mesh (never `none`); a successful conversion propagates the Nef's
convexity; hybrid and boolean-kernel variants delegate to their own
conversions; any unrecognized variant yields `none`. -/
theorem claim_C9 (K : KernelOps M N H P E) :
    (∀ ps : PolySet Vec3,
      getGeometryAsPolySet (O := O) K (.polySet ps) = (some ps, false))
    ∧ (∀ n : N, K.nIsEmpty n = true →
        getGeometryAsPolySet (O := O) K (.nef n) = (some emptyPolySet3, false))
    ∧ (∀ n : N, K.nIsEmpty n = false → K.nToPolySet n = none →
        getGeometryAsPolySet (O := O) K (.nef n) = (some emptyPolySet3, true))
    ∧ (∀ (n : N) (ps : PolySet Vec3), K.nIsEmpty n = false →
        K.nToPolySet n = some ps →
        getGeometryAsPolySet (O := O) K (.nef n)
          = (some (ps.setConvexity (K.nConvexity n)), false))
    ∧ (∀ h : H, getGeometryAsPolySet (O := O) K (.hybrid h)
        = (K.hToPolySet h, false))
    ∧ (∀ m : M, getGeometryAsPolySet (O := O) K (.manifoldGeo m)
        = (some (toPolySetM K m), false))
    ∧ (∀ o : O, getGeometryAsPolySet K (.other o) = (none, false)) := by
  refine ⟨fun ps => rfl, ?_, ?_, ?_, fun h => rfl, fun m => rfl, fun o => rfl⟩
  · intro n hn
    simp [getGeometryAsPolySet, hn]
  · intro n hn hc
    simp [getGeometryAsPolySet, hn, hc]
  · intro n ps hn hc
    simp [getGeometryAsPolySet, hn, hc]

/-- Embeds the body of `toPolyhedron` (part_000 lines 147-159) that can throw:
fetch the mesh and run the incremental builder protocol through CGAL
(`p->delegate(builder)`); a CGAL assertion failure surfaces as `Except.error`. -/
def toPolyhedronBody (K : KernelOps M N H P E) (m : M) : Except E P :=
  K.delegateRun
    ([BuilderStep.beginSurface (K.getMesh m).vertPos.length
        (K.getMesh m).triVerts.length]
      ++ (K.getMesh m).vertPos.map BuilderStep.addVertex
      ++ ((K.getMesh m).triVerts.map (fun t =>
            [BuilderStep.beginFacet,
             BuilderStep.addVertexToFacet t.1,
             BuilderStep.addVertexToFacet t.2.1,
             BuilderStep.addVertexToFacet t.2.2,
             BuilderStep.endFacet])).flatten
      ++ [BuilderStep.endSurface])

/-- Embeds `ManifoldGeometry::toPolyhedron` (part_000 lines 147-159): the
try/catch seam — on a CGAL assertion exception the error is logged (Boolean)
and the default-constructed polyhedron is returned; no exception escapes. -/
def toPolyhedron (K : KernelOps M N H P E) (m : M) : P × Bool :=
  match toPolyhedronBody K m with
  | .ok q => (q, false)
  | .error _ => (K.defaultP, true)

/-- C3: when the exact kernel rejects the input while building the polyhedron
(the incremental builder run fails), `toPolyhedron` catches the failure at the
seam, logs an error and returns the default-constructed polyhedron handle; on
success it returns the built polyhedron with no error.  In both cases a plain
value is returned — the low-level failure is never propagated. -/
theorem claim_C3 (K : KernelOps M N H P E) :
    (∀ (m : M) (e : E), toPolyhedronBody K m = .error e →
      toPolyhedron K m = (K.defaultP, true))
    ∧ (∀ (m : M) (q : P), toPolyhedronBody K m = .ok q →
      toPolyhedron K m = (q, false)) := by
  constructor
  · intro m e h
    unfold toPolyhedron
    rw [h]
  · intro m q h
    unfold toPolyhedron
    rw [h]

theorem claim_C3_witness :
    toPolyhedronBody (M := Unit) (N := Unit) (H := Unit) (P := Nat) (E := Unit)
      ⟨0, fun a _ _ => a, fun a _ => a, fun _ => ⟨3, [], []⟩,
       fun _ => ⟨[], []⟩, fun _ => ((0, 0, 0), (0, 0, 0)),
       fun _ _ _ _ _ => 0, fun _ => true, fun _ => none, fun _ => 0,
       fun _ => none, fun _ => (), fun _ _ => (), fun _ => (),
       7, fun _ => .error ()⟩ () = .error ()
    ∧ toPolyhedron (M := Unit) (N := Unit) (H := Unit) (P := Nat) (E := Unit)
      ⟨0, fun a _ _ => a, fun a _ => a, fun _ => ⟨3, [], []⟩,
       fun _ => ⟨[], []⟩, fun _ => ((0, 0, 0), (0, 0, 0)),
       fun _ _ _ _ _ => 0, fun _ => true, fun _ => none, fun _ => 0,
       fun _ => none, fun _ => (), fun _ _ => (), fun _ => (),
       7, fun _ => .error ()⟩ () = (7, true) := by
  refine ⟨rfl, ?_⟩
  exact (claim_C3 _).1 () () rfl

def KW9 : KernelOps Unit Bool Unit Unit Unit :=
  ⟨(), fun a _ _ => a, fun a _ => a, fun _ => ⟨3, [], []⟩, fun _ => ⟨[], []⟩,
   fun _ => ((0, 0, 0), (0, 0, 0)), fun _ _ _ _ _ => 0, fun n => n,
   fun n => if n then none else some ⟨[(1, 1, 1)], [], 3, none, 9⟩,
   fun _ => 4, fun _ => none, fun _ => true, fun _ _ => true, fun _ => (),
   (), fun _ => .ok ()⟩

theorem claim_C9_witness :
    getGeometryAsPolySet (O := Unit) KW9 (.nef true) = (some emptyPolySet3, false)
    ∧ getGeometryAsPolySet (O := Unit) KW9 (.nef false)
        = (some ((⟨[(1, 1, 1)], [], 3, none, 9⟩ : PolySet Vec3).setConvexity 4),
           false)
    ∧ getGeometryAsPolySet (O := Unit) KW9 (.other ()) = (none, false) := by
  have h := claim_C9 (O := Unit) KW9
  exact ⟨h.2.1 true rfl, h.2.2.2.1 false ⟨[(1, 1, 1)], [], 3, none, 9⟩ rfl rfl,
    h.2.2.2.2.2.2 ()⟩

/-! ### Shared-solid heap and the mutating operations -/

/-- Append-only heap of kernel solids: an address models a
`shared_ptr<manifold::Manifold>` target; `make_shared` appends a fresh cell,
leaving every existing cell untouched. -/
structure Heap (M : Type) where
  cells : List M

def Heap.get [Inhabited M] (h : Heap M) (i : Nat) : M := h.cells.getD i default

def Heap.alloc (h : Heap M) (m : M) : Heap M × Nat :=
  (⟨h.cells ++ [m]⟩, h.cells.length)

/-- The adapter state: just the shared reference `manifold_` (part_000).  The
solid itself lives in the heap. -/
structure ManifoldGeometry where
  manifold_ : Nat

/-- Embeds the copy constructor (part_000 line 29): the copy shares the same
`manifold_` reference, no deep copy. -/
def copyMG (g : ManifoldGeometry) : ManifoldGeometry := ⟨g.manifold_⟩

theorem heap_alloc_get (h : Heap M) (m : M) {i : Nat}
    (hi : i < h.cells.length) : (h.alloc m).1.get i = h.get i := by
  unfold Heap.alloc Heap.get
  simp only [List.getD_eq_getElem?_getD]
  rw [List.getElem?_append_left hi]

theorem heap_alloc_get_new (h : Heap M) (m : M) :
    (h.alloc m).1.get (h.alloc m).2 = m := by
  unfold Heap.alloc Heap.get
  simp only [List.getD_eq_getElem?_getD]
  rw [List.getElem?_append_right (Nat.le_refl _)]
  simp

/-- Embeds `binOp` (part_000 lines 164-166): a fresh solid holding the boolean
combination of both operands' solids. -/
def binOp (K : KernelOps M N H P E) (h : Heap M)
    (lhs rhs : ManifoldGeometry) (op : OpType) : Heap M × Nat :=
  h.alloc (K.boolOpK (h.get lhs.manifold_) (h.get rhs.manifold_) op)

/-- Result of a mutating adapter operation: the new heap, the adapter with its
replaced reference, and whether an error was logged along the way. -/
structure MutResult (M : Type) where
  heap : Heap M
  geo : ManifoldGeometry
  errLogged : Bool

/-- Embeds `operator+=` (part_000 lines 168-170). -/
def opAddAssign (K : KernelOps M N H P E) (h : Heap M)
    (a b : ManifoldGeometry) : MutResult M :=
  let p := binOp K h a b .Add
  ⟨p.1, ⟨p.2⟩, false⟩

/-- Embeds `operator*=` (part_000 lines 172-174). -/
def opMulAssign (K : KernelOps M N H P E) (h : Heap M)
    (a b : ManifoldGeometry) : MutResult M :=
  let p := binOp K h a b .Intersect
  ⟨p.1, ⟨p.2⟩, false⟩

/-- Embeds `operator-=` (part_000 lines 176-178). -/
def opSubAssign (K : KernelOps M N H P E) (h : Heap M)
    (a b : ManifoldGeometry) : MutResult M :=
  let p := binOp K h a b .Subtract
  ⟨p.1, ⟨p.2⟩, false⟩

/-- Embeds `clear` (part_000 lines 66-68): replace the reference with a fresh
empty solid. -/
def clear (K : KernelOps M N H P E) (h : Heap M) (_a : ManifoldGeometry) :
    MutResult M :=
  let p := h.alloc K.emptyM
  ⟨p.1, ⟨p.2⟩, false⟩

/-- Embeds `transform` (part_000 lines 199-208): a fresh solid holding the
kernel transform by the column-major matrix. -/
def transform (K : KernelOps M N H P E) (h : Heap M) (a : ManifoldGeometry)
    (mat : Transform3d) : MutResult M :=
  let p := h.alloc (K.transformK (h.get a.manifold_) (glMatOf mat))
  ⟨p.1, ⟨p.2⟩, false⟩

/-- Embeds `getBoundingBox` (part_000 lines 210-217): the empty Eigen box
extended by the kernel box's two corners is exactly that corner pair (the
kernel guarantees min ≤ max componentwise). -/
def getBoundingBox (K : KernelOps M N H P E) (m : M) : BBox := K.kBBox m

/-- Embeds `resize` (part_000 lines 219-221): transform by
`GeometryUtils::getResizeTransform(getBoundingBox(), newsize, autosize)`. -/
def resize (K : KernelOps M N H P E) (h : Heap M) (a : ManifoldGeometry)
    (newsize : Vec3) (autosize : Auto3) : MutResult M :=
  transform K h a
    (K.getResizeTransform (getBoundingBox K (h.get a.manifold_)) newsize autosize)

/-- Embeds `minkowski` (part_000 lines 180-197): convert both operands to
`PolySet` and lift them to Nef polyhedra; if either is empty, `clear()`;
otherwise take the Nef Minkowski sum, flatten it back through the dispatcher
and, on success, re-ingest it via the trusted path — on a null result,
`clear()`. -/
def minkowski (K : KernelOps M N H P E) (h : Heap M)
    (a b : ManifoldGeometry) : MutResult M :=
  let lhs := K.createNef (toPolySetM K (h.get a.manifold_))
  let rhs := K.createNef (toPolySetM K (h.get b.manifold_))
  if K.nIsEmpty lhs || K.nIsEmpty rhs then clear K h a
  else
    match getGeometryAsPolySet (O := Unit) K (.nef (K.nefMinkowski lhs rhs)) with
    | (none, err) =>
      let c := clear K h a
      ⟨c.heap, c.geo, err⟩
    | (some ps, err) =>
      let p := h.alloc (K.trustedPolySetToManifold ps)
      ⟨p.1, ⟨p.2⟩, err⟩

/-- The mutating operations of the adapter interface. -/
inductive MutOp where
  | addAssign (other : ManifoldGeometry)
  | mulAssign (other : ManifoldGeometry)
  | subAssign (other : ManifoldGeometry)
  | transformOp (mat : Transform3d)
  | minkowskiOp (other : ManifoldGeometry)
  | resizeOp (newsize : Vec3) (autosize : Auto3)
  | clearOp

def applyMutOp (K : KernelOps M N H P E) (h : Heap M) (a : ManifoldGeometry) :
    MutOp → MutResult M
  | .addAssign b => opAddAssign K h a b
  | .mulAssign b => opMulAssign K h a b
  | .subAssign b => opSubAssign K h a b
  | .transformOp mat => transform K h a mat
  | .minkowskiOp b => minkowski K h a b
  | .resizeOp newsize autosize => resize K h a newsize autosize
  | .clearOp => clear K h a

/-- Every mutating operation allocates exactly one fresh solid and points the
adapter at it. -/
theorem applyMutOp_alloc (K : KernelOps M N H P E) (h : Heap M)
    (a : ManifoldGeometry) (op : MutOp) :
    ∃ m : M, (applyMutOp K h a op).heap = (h.alloc m).1
      ∧ (applyMutOp K h a op).geo.manifold_ = (h.alloc m).2 := by
  cases op with
  | addAssign b => exact ⟨_, rfl, rfl⟩
  | mulAssign b => exact ⟨_, rfl, rfl⟩
  | subAssign b => exact ⟨_, rfl, rfl⟩
  | transformOp mat => exact ⟨_, rfl, rfl⟩
  | resizeOp newsize autosize => exact ⟨_, rfl, rfl⟩
  | clearOp => exact ⟨_, rfl, rfl⟩
  | minkowskiOp b =>
    show ∃ m : M, (minkowski K h a b).heap = (h.alloc m).1
      ∧ (minkowski K h a b).geo.manifold_ = (h.alloc m).2
    unfold minkowski
    by_cases hemp : (K.nIsEmpty (K.createNef (toPolySetM K (h.get a.manifold_)))
        || K.nIsEmpty (K.createNef (toPolySetM K (h.get b.manifold_)))) = true
    · rw [if_pos hemp]
      exact ⟨K.emptyM, rfl, rfl⟩
    · rw [if_neg hemp]
      split
      · exact ⟨K.emptyM, rfl, rfl⟩
      · rename_i ps err heq
        exact ⟨K.trustedPolySetToManifold ps, rfl, rfl⟩

/-- C1: copy-on-write sharing.  Copying shares the `Solid` reference; every
mutating operation (`+=`, `*=`, `-=`, `transform`, `minkowski`, `resize`,
`clear`) allocates a fresh solid and replaces only the calling adapter's own
reference: the new reference is fresh (at the old heap boundary), every
existing heap cell is untouched, so any adapter copy `b` made before the
mutation still denotes its original solid and never aliases the new one. -/
theorem claim_C1 (K : KernelOps M N H P E) (h : Heap M)
    (a b : ManifoldGeometry) (op : MutOp)
    (hb : b.manifold_ < h.cells.length) :
    (copyMG a).manifold_ = a.manifold_
    ∧ (applyMutOp K h a op).geo.manifold_ = h.cells.length
    ∧ (applyMutOp K h a op).heap.get b.manifold_ = h.get b.manifold_
    ∧ b.manifold_ ≠ (applyMutOp K h a op).geo.manifold_ := by
  obtain ⟨m, hh, hg⟩ := applyMutOp_alloc K h a op
  refine ⟨rfl, ?_, ?_, ?_⟩
  · rw [hg]; rfl
  · rw [hh]; exact heap_alloc_get h m hb
  · rw [hg]
    show b.manifold_ ≠ h.cells.length
    omega

def KW1 : KernelOps Nat Unit Unit Unit Unit :=
  ⟨99, fun x y _ => x + y, fun x _ => x, fun _ => ⟨3, [], []⟩,
   fun _ => ⟨[], []⟩, fun _ => ((0, 0, 0), (0, 0, 0)), fun _ _ _ _ _ => 0,
   fun _ => true, fun _ => none, fun _ => 0, fun _ => none, fun _ => (),
   fun _ _ => (), fun _ => 42, (), fun _ => .ok ()⟩

theorem claim_C1_witness :
    ((copyMG ⟨0⟩).manifold_ = (⟨0⟩ : ManifoldGeometry).manifold_
      ∧ (applyMutOp KW1 ⟨[5]⟩ ⟨0⟩ .clearOp).geo.manifold_
          = (⟨[5]⟩ : Heap Nat).cells.length
      ∧ (applyMutOp KW1 ⟨[5]⟩ ⟨0⟩ .clearOp).heap.get
            (⟨0⟩ : ManifoldGeometry).manifold_
          = (⟨[5]⟩ : Heap Nat).get (⟨0⟩ : ManifoldGeometry).manifold_
      ∧ (⟨0⟩ : ManifoldGeometry).manifold_
          ≠ (applyMutOp KW1 ⟨[5]⟩ ⟨0⟩ .clearOp).geo.manifold_)
    ∧ (applyMutOp KW1 ⟨[5]⟩ ⟨0⟩ .clearOp).heap.cells = [5, 99] := by
  refine ⟨claim_C1 KW1 ⟨[5]⟩ ⟨0⟩ ⟨0⟩ .clearOp (by decide), by decide⟩

/-- C4: when at least one Minkowski operand converts to an empty Nef
polyhedron, `minkowski` clears the calling adapter — its solid becomes the
fresh empty solid — and no error is signalled. -/
theorem claim_C4 (K : KernelOps M N H P E) (h : Heap M)
    (a b : ManifoldGeometry)
    (hemp : K.nIsEmpty (K.createNef (toPolySetM K (h.get a.manifold_))) = true
      ∨ K.nIsEmpty (K.createNef (toPolySetM K (h.get b.manifold_))) = true) :
    (minkowski K h a b).heap.get (minkowski K h a b).geo.manifold_ = K.emptyM
    ∧ (minkowski K h a b).errLogged = false := by
  have hcond : (K.nIsEmpty (K.createNef (toPolySetM K (h.get a.manifold_)))
      || K.nIsEmpty (K.createNef (toPolySetM K (h.get b.manifold_)))) = true := by
    rcases hemp with h1 | h1 <;> simp [h1]
  unfold minkowski
  rw [if_pos hcond]
  exact ⟨heap_alloc_get_new h K.emptyM, rfl⟩

def KW4 : KernelOps Nat Unit Unit Unit Unit :=
  ⟨99, fun x y _ => x + y, fun x _ => x, fun _ => ⟨3, [], []⟩,
   fun _ => ⟨[], []⟩, fun _ => ((0, 0, 0), (0, 0, 0)), fun _ _ _ _ _ => 0,
   fun _ => true, fun _ => none, fun _ => 0, fun _ => none, fun _ => (),
   fun _ _ => (), fun _ => 42, (), fun _ => .ok ()⟩

theorem claim_C4_witness :
    ((minkowski KW4 ⟨[5, 6]⟩ ⟨0⟩ ⟨1⟩).heap.get
        (minkowski KW4 ⟨[5, 6]⟩ ⟨0⟩ ⟨1⟩).geo.manifold_ = KW4.emptyM
      ∧ (minkowski KW4 ⟨[5, 6]⟩ ⟨0⟩ ⟨1⟩).errLogged = false)
    ∧ (minkowski KW4 ⟨[5, 6]⟩ ⟨0⟩ ⟨1⟩).heap.cells = [5, 6, 99] := by
  refine ⟨claim_C4 KW4 ⟨[5, 6]⟩ ⟨0⟩ ⟨1⟩ (Or.inl rfl), by decide⟩

end OpenSCAD
